import Mathlib

/-!
# cache2go: a shallow embedding of `CacheItem` and `CacheTable`

The embedding follows `newCache2go/cacheitem.go`, `newCache2go/cachetable.go`
and `newCache2go/errors.go`.

Modelling conventions.

* Keys (`interface{}` used as Go map keys) are natural numbers; payloads
  (`interface{}`) are the tree type `Data`, which tells a value apart from the
  `[]interface{}` slice a variadic parameter packs it into.
* `time.Time` is an integer count of nanoseconds, `time.Duration` and the
  `int64` access counter are integers; `int64` arithmetic done by the
  repository (`accessdCount++`, `lifeSpan - now.Sub(accessOn)`) wraps modulo
  `2^64`, and `Time.Sub` saturates the way the Go library documents it.
* Every call of `time.Now()` is an explicit clock reading passed as argument.
  The Go clock is monotonic, so the readings of an execution never go back;
  the statements that depend on it say so (`timelySteps`, or no entry last
  read after the clock reading of the sweep).
* A `*CacheItem` stored in the table is always freshly allocated by
  `NewCacheItem` and stored under one key only, so the table map holds the
  item records themselves; a mutation through the pointer (`KeepAlive`) is an
  update of the record in the map.
* The embedded `sync.RWMutex` of the table is explicit state.  The Go library
  documents `Unlock` on a mutex not locked for writing, and `RUnlock` on a
  mutex not locked for reading, as run-time errors (the runtime aborts with
  `fatal error: sync: Unlock of unlocked RWMutex`); acquiring a lock that is
  held never returns in a sequential execution.  Both are results of type
  `Fault`.  The per-item mutex is only ever acquired and released in matching
  pairs inside one method and is not modelled.
* User callbacks are opaque: a callback is named by an identifier and its
  invocation is recorded, with its argument and with the table map as it
  stands at that moment, in the execution trace of the `World`.  Callbacks and
  the loader do not call back into the table.
* The logger has no effect on the table and is left out.
* `sort.Sort` orders a list so that no element is `Less` than one before it;
  the order it gives to elements that are not `Less` than one another is
  unspecified, and the model keeps them in their order.
* A concurrent execution is taken at the granularity of calls: the calls run
  one after the other, in any order.
-/

namespace Cache2go

/-! ## Values -/

/-- Map keys: an opaque comparable identity. -/
abbrev Key := Nat

/-- Payloads of type `interface{}`: `nil`, an opaque value, or a slice of
payloads (what a variadic `data ...interface{}` parameter holds). -/
inductive Data where
  | nil
  | atom (n : Nat)
  | slice (xs : List Data)

mutual
/-- Decision procedure for equality of payloads. -/
def Data.decEq : (a b : Data) → Decidable (a = b)
  | .nil, .nil => isTrue rfl
  | .nil, .atom _ => isFalse (by intro h; cases h)
  | .nil, .slice _ => isFalse (by intro h; cases h)
  | .atom _, .nil => isFalse (by intro h; cases h)
  | .atom n, .atom m =>
    if h : n = m then isTrue (by rw [h]) else isFalse (by intro h2; cases h2; exact h rfl)
  | .atom _, .slice _ => isFalse (by intro h; cases h)
  | .slice _, .nil => isFalse (by intro h; cases h)
  | .slice _, .atom _ => isFalse (by intro h; cases h)
  | .slice xs, .slice ys =>
    match Data.decEqList xs ys with
    | isTrue h => isTrue (by rw [h])
    | isFalse h => isFalse (by intro h2; cases h2; exact h rfl)
/-- Decision procedure for equality of payload slices. -/
def Data.decEqList : (as bs : List Data) → Decidable (as = bs)
  | [], [] => isTrue rfl
  | [], _ :: _ => isFalse (by intro h; cases h)
  | _ :: _, [] => isFalse (by intro h; cases h)
  | a :: as, b :: bs =>
    match Data.decEq a b, Data.decEqList as bs with
    | isTrue h1, isTrue h2 => isTrue (by rw [h1, h2])
    | isFalse h1, _ => isFalse (by intro h; cases h; exact h1 rfl)
    | _, isFalse h2 => isFalse (by intro h; cases h; exact h2 rfl)
end

instance : DecidableEq Data := Data.decEq

/-- Instants (`time.Time`), in nanoseconds. -/
abbrev Time := Int

/-- Durations (`time.Duration`, an `int64` count of nanoseconds). -/
abbrev Duration := Int

/-- The smallest `int64`. -/
def minInt64 : Int := -9223372036854775808

/-- The largest `int64`. -/
def maxInt64 : Int := 9223372036854775807

/-- Two-complement wrap-around of `int64` arithmetic. -/
def wrapInt64 (x : Int) : Int :=
  (x + 9223372036854775808) % 18446744073709551616 - 9223372036854775808

/-- Saturation to the `int64` range. -/
def clampInt64 (x : Int) : Int :=
  if x < minInt64 then minInt64 else if maxInt64 < x then maxInt64 else x

/-- The library function `t.Sub(u)`: the duration `t - u`, saturated to the
range of `time.Duration`. -/
def Time.Sub (t u : Time) : Duration := clampInt64 (t - u)

/-- One millisecond, in nanoseconds. -/
def Millisecond : Duration := 1000000

/-- User callbacks are opaque; they are named by an identifier. -/
abbrev CallbackId := Nat

/-! ## `CacheItem` (cacheitem.go) -/

/-- The struct `CacheItem` (without its mutex). -/
structure CacheItem where
  key : Key
  data : Data
  lifeSpan : Duration
  createdOn : Time
  accessdOn : Time
  accessdCount : Int
  aboutToExpire : List CallbackId
deriving DecidableEq

/-- The Go function `NewCacheItem`; `t` is its reading of `time.Now()`. -/
def NewCacheItem (key : Key) (lifeSpan : Duration) (data : Data) (t : Time) : CacheItem where
  key := key
  data := data
  lifeSpan := lifeSpan
  createdOn := t
  accessdOn := t
  accessdCount := 0
  aboutToExpire := []

/-- The method `KeepAlive`; `now` is its reading of `time.Now()`. -/
def CacheItem.KeepAlive (item : CacheItem) (now : Time) : CacheItem :=
  { item with accessdOn := now, accessdCount := wrapInt64 (item.accessdCount + 1) }

/-! ## The table mutex -/

/-- Run-time failures that end an execution. -/
inductive Fault where
  /-- `sync: Unlock of unlocked RWMutex`. -/
  | unlockOfUnlocked
  /-- `sync: RUnlock of unlocked RWMutex`. -/
  | runlockOfUnlocked
  /-- The caller waits for a lock that nobody will release. -/
  | blocked
deriving DecidableEq

/-- State of a `sync.RWMutex`: the number of readers holding it in shared form
and whether a writer holds it in exclusive form. -/
structure RWMutex where
  readerCount : Nat
  writer : Bool
deriving DecidableEq

/-- The mutex held by nobody. -/
def RWMutex.free : RWMutex := ⟨0, false⟩

/-- `Lock`: exclusive acquire. -/
def RWMutex.Lock (m : RWMutex) : Except Fault RWMutex :=
  if m.readerCount = 0 ∧ m.writer = false then .ok { m with writer := true }
  else .error Fault.blocked

/-- `Unlock`: exclusive release; a run-time error unless locked for writing. -/
def RWMutex.Unlock (m : RWMutex) : Except Fault RWMutex :=
  if m.writer = true then .ok { m with writer := false }
  else .error Fault.unlockOfUnlocked

/-- `RLock`: shared acquire. -/
def RWMutex.RLock (m : RWMutex) : Except Fault RWMutex :=
  if m.writer = false then .ok { m with readerCount := m.readerCount + 1 }
  else .error Fault.blocked

/-- `RUnlock`: shared release; a run-time error unless locked for reading. -/
def RWMutex.RUnlock (m : RWMutex) : Except Fault RWMutex :=
  if 0 < m.readerCount then .ok { m with readerCount := m.readerCount - 1 }
  else .error Fault.runlockOfUnlocked

/-! ## `CacheTable` (cachetable.go) -/

/-- The Go map `map[interface{}]*CacheItem`: an association list with
pairwise distinct keys. -/
abbrev Items := AList (fun _ : Key => CacheItem)

/-- A `*time.Timer` created by `time.AfterFunc`: its delay and whether it is
still pending (not stopped). -/
structure Timer where
  delay : Duration
  pending : Bool
deriving DecidableEq

/-- The method `Stop` of a timer. -/
def Timer.Stop (t : Timer) : Timer := { t with pending := false }

/-- Errors of errors.go. -/
inductive CacheError where
  | ErrKeyNotFound
  | ErrKeyNotFoundOrLoadable
deriving DecidableEq

/-- The struct `CacheTable`. -/
structure CacheTable where
  mutex : RWMutex
  name : String
  items : Items
  cleanupTimer : Option Timer
  cleanupInterval : Duration
  loadData : Option (Key → List Data → Option CacheItem)
  addedItem : List CallbackId
  aboutToDeleteItem : List CallbackId

/-- Observable actions of an execution, in the order in which they happen. -/
inductive Event where
  | Lock
  | Unlock
  | RLock
  | RUnlock
  /-- The on-add callback `cb` is called with `item`; `view` is the table map then. -/
  | addedItem (cb : CallbackId) (item : CacheItem) (view : Items)
  /-- The about-to-delete callback `cb` is called with `item`. -/
  | aboutToDeleteItem (cb : CallbackId) (item : CacheItem) (view : Items)
  /-- The expire callback `cb` of an item is called with `key`. -/
  | aboutToExpire (cb : CallbackId) (key : Key) (view : Items)
  /-- The loader is called with `key` and `args`. -/
  | loadData (key : Key) (args : List Data)
  /-- The visitor `cb` of `Foreach` is called with `key` and `item`. -/
  | trans (cb : CallbackId) (key : Key) (item : CacheItem)
deriving DecidableEq

/-- A table together with the trace of what has happened so far. -/
structure World where
  table : CacheTable
  trace : List Event

/-- Append an event to the trace. -/
def World.emit (w : World) (e : Event) : World :=
  { w with trace := w.trace ++ [e] }

/-- Append events to the trace. -/
def World.emits (w : World) (es : List Event) : World :=
  { w with trace := w.trace ++ es }

/-- Assign the mutex state. -/
def World.setMutex (w : World) (m : RWMutex) : World :=
  { w with table := { w.table with mutex := m } }

/-- Assign `table.items`. -/
def World.setItems (w : World) (items : Items) : World :=
  { w with table := { w.table with items := items } }

/-- The Go function `Cache` on a name never seen: a fresh empty table. -/
def Cache (table : String) : CacheTable where
  mutex := RWMutex.free
  name := table
  items := ∅
  cleanupTimer := none
  cleanupInterval := 0
  loadData := none
  addedItem := []
  aboutToDeleteItem := []

/-- The call `table.Lock()`. -/
def CacheTable.Lock (w : World) : Except Fault World := do
  let m ← w.table.mutex.Lock
  pure ((w.setMutex m).emit Event.Lock)

/-- The call `table.Unlock()`. -/
def CacheTable.Unlock (w : World) : Except Fault World := do
  let m ← w.table.mutex.Unlock
  pure ((w.setMutex m).emit Event.Unlock)

/-- The call `table.RLock()`. -/
def CacheTable.RLock (w : World) : Except Fault World := do
  let m ← w.table.mutex.RLock
  pure ((w.setMutex m).emit Event.RLock)

/-- The call `table.RUnlock()`. -/
def CacheTable.RUnlock (w : World) : Except Fault World := do
  let m ← w.table.mutex.RUnlock
  pure ((w.setMutex m).emit Event.RUnlock)

/-- The loop `for _, callback := range addedItem { callback(item) }`. -/
def runAddedItem (cbs : List CallbackId) (item : CacheItem) (w : World) : World :=
  w.emits (cbs.map (fun cb => Event.addedItem cb item w.table.items))

/-- The loop `for _, callback := range aboutToDeleteItem { callback(r) }`. -/
def runAboutToDeleteItem (cbs : List CallbackId) (r : CacheItem) (w : World) : World :=
  w.emits (cbs.map (fun cb => Event.aboutToDeleteItem cb r w.table.items))

/-- The loop `for _, callback := range r.aboutToExpire { callback(key) }`. -/
def runAboutToExpire (cbs : List CallbackId) (key : Key) (w : World) : World :=
  w.emits (cbs.map (fun cb => Event.aboutToExpire cb key w.table.items))

/-- The method `deleteInternal`, entered with the table lock held in
exclusive form. -/
def CacheTable.deleteInternal (key : Key) (w : World) :
    Except Fault (Except CacheError CacheItem × World) :=
  match w.table.items.lookup key with
  | none => pure (.error CacheError.ErrKeyNotFound, w)
  | some r => do
    let aboutToDeleteItem := w.table.aboutToDeleteItem
    let w ← CacheTable.Unlock w
    let w := runAboutToDeleteItem aboutToDeleteItem r w
    let w := runAboutToExpire r.aboutToExpire key w
    let w ← CacheTable.Lock w
    let w := w.setItems (w.table.items.erase key)
    pure (.ok r, w)

/-- The method `Delete`. -/
def CacheTable.Delete (key : Key) (w : World) :
    Except Fault (Except CacheError CacheItem × World) := do
  let w ← CacheTable.Lock w
  let (r, w) ← CacheTable.deleteInternal key w
  let w ← CacheTable.Unlock w
  pure (r, w)

/-- The body of the loop `for key, item := range table.items` of
`expirationCheck`, run over the entries still to be visited; the second
argument is `smallestDuration`. -/
def sweepLoop (now : Time) :
    List (Sigma fun _ : Key => CacheItem) → Duration → World → Except Fault (Duration × World)
  | [], smallestDuration, w => pure (smallestDuration, w)
  | ⟨key, item⟩ :: rest, smallestDuration, w =>
    let lifeSpan := item.lifeSpan
    let accessOn := item.accessdOn
    if lifeSpan = 0 then
      sweepLoop now rest smallestDuration w
    else if Time.Sub now accessOn ≥ lifeSpan then do
      let (_, w) ← CacheTable.deleteInternal key w
      sweepLoop now rest smallestDuration w
    else if smallestDuration = 0 ∨ wrapInt64 (lifeSpan - Time.Sub now accessOn) < smallestDuration then
      sweepLoop now rest (wrapInt64 (lifeSpan - Time.Sub now accessOn)) w
    else
      sweepLoop now rest smallestDuration w

/-- The statement `if table.cleanupTimer != nil { table.cleanupTimer.Stop() }`. -/
def stopCleanupTimer (w : World) : World :=
  { w with table := { w.table with cleanupTimer := w.table.cleanupTimer.map Timer.Stop } }

/-- The end of `expirationCheck`: record the interval and arm a timer for it
when it is positive. -/
def schedule (smallestDuration : Duration) (w : World) : World :=
  { w with table :=
    { w.table with
      cleanupInterval := smallestDuration
      cleanupTimer :=
        if smallestDuration > 0 then some ⟨smallestDuration, true⟩ else w.table.cleanupTimer } }

/-- The method `expirationCheck` (one pass of the sweep); `now` is its
reading of `time.Now()`. -/
def CacheTable.expirationCheck (now : Time) (w : World) : Except Fault World := do
  let w ← CacheTable.Lock w
  let w := stopCleanupTimer w
  let (smallestDuration, w) ← sweepLoop now w.table.items.entries 0 w
  let w := schedule smallestDuration w
  CacheTable.Unlock w

/-- The method `addInternal`, entered with the table lock held in exclusive
form; `tSweep` is the clock reading of the sweep it may start. -/
def CacheTable.addInternal (item : CacheItem) (tSweep : Time) (w : World) :
    Except Fault World := do
  let w := w.setItems (w.table.items.insert item.key item)
  let expDur := w.table.cleanupInterval
  let addedItem := w.table.addedItem
  let w ← CacheTable.Unlock w
  let w := runAddedItem addedItem item w
  if item.lifeSpan > 0 ∧ (expDur = 0 ∨ item.lifeSpan < expDur) then
    CacheTable.expirationCheck tSweep w
  else
    pure w

/-- The method `Add`; `tCreate` is the clock reading of `NewCacheItem`. -/
def CacheTable.Add (key : Key) (lifeSpan : Duration) (data : Data) (tCreate tSweep : Time)
    (w : World) : Except Fault (CacheItem × World) := do
  let item := NewCacheItem key lifeSpan data tCreate
  let w ← CacheTable.Lock w
  let w ← CacheTable.addInternal item tSweep w
  pure (item, w)

/-- The method `Exists`. -/
def CacheTable.Exists (key : Key) (w : World) : Except Fault (Bool × World) := do
  let w ← CacheTable.RLock w
  let ok := (w.table.items.lookup key).isSome
  let w ← CacheTable.RUnlock w
  pure (ok, w)

/-- The method `Count`. -/
def CacheTable.Count (w : World) : Except Fault (Nat × World) := do
  let w ← CacheTable.RLock w
  let n := w.table.items.entries.length
  let w ← CacheTable.RUnlock w
  pure (n, w)

/-- The method `NotFoundAdded`; its variadic parameter `data` reaches
`NewCacheItem` as a slice. -/
def CacheTable.NotFoundAdded (key : Key) (lifeSpan : Duration) (data : List Data)
    (tCreate tSweep : Time) (w : World) : Except Fault (Bool × World) := do
  let w ← CacheTable.Lock w
  match w.table.items.lookup key with
  | some _ => do
    let w ← CacheTable.Unlock w
    pure (false, w)
  | none => do
    let item := NewCacheItem key lifeSpan (Data.slice data) tCreate
    let w ← CacheTable.addInternal item tSweep w
    pure (true, w)

/-- The body of `Value` after the table lock has been released (from
`if ok` on): `r` is the entry found under the key, if any, and `loadData` the
loader read under the lock. -/
def CacheTable.valueAfterRelease (key : Key) (args : List Data) (r : Option CacheItem)
    (loadData : Option (Key → List Data → Option CacheItem)) (tAccess tCreate tSweep : Time)
    (w : World) : Except Fault (Except CacheError CacheItem × World) :=
  match r with
  | some r =>
    let r := r.KeepAlive tAccess
    pure (.ok r, w.setItems (w.table.items.replace key r))
  | none =>
    match loadData with
    | some f =>
      let w := w.emit (Event.loadData key args)
      match f key args with
      | some item => do
        let (_, w) ← CacheTable.Add key item.lifeSpan item.data tCreate tSweep w
        pure (.ok item, w)
      | none => pure (.error CacheError.ErrKeyNotFoundOrLoadable, w)
    | none => pure (.error CacheError.ErrKeyNotFound, w)

/-- The method `Value`: it acquires the table lock with `RLock` and releases
it with `Unlock`. `tAccess` is the clock reading of `KeepAlive`, `tCreate` and
`tSweep` those of the `Add` on the loader path. -/
def CacheTable.Value (key : Key) (args : List Data) (tAccess tCreate tSweep : Time)
    (w : World) : Except Fault (Except CacheError CacheItem × World) := do
  let w ← CacheTable.RLock w
  let r := w.table.items.lookup key
  let loadData := w.table.loadData
  let w ← CacheTable.Unlock w
  CacheTable.valueAfterRelease key args r loadData tAccess tCreate tSweep w

/-- The method `Flush`. -/
def CacheTable.Flush (w : World) : Except Fault World := do
  let w ← CacheTable.Lock w
  let w := w.setItems ∅
  let w : World := { w with table := { w.table with cleanupInterval := 0 } }
  let w := stopCleanupTimer w
  CacheTable.Unlock w

/-! ## Getters and callback lists of `CacheItem` (cacheitem.go) -/

/-- The method `LifeSpan`. -/
def CacheItem.LifeSpan (item : CacheItem) : Duration := item.lifeSpan

/-- The method `AccessOn`. -/
def CacheItem.AccessOn (item : CacheItem) : Time := item.accessdOn

/-- The method `AccessdCount`. -/
def CacheItem.AccessdCount (item : CacheItem) : Int := item.accessdCount

/-- The method `Key`. -/
def CacheItem.Key (item : CacheItem) : Key := item.key

/-- The method `Data`. -/
def CacheItem.Data (item : CacheItem) : Data := item.data

/-- The method `RemoveAboutToExpireCallback`. -/
def CacheItem.RemoveAboutToExpireCallback (item : CacheItem) : CacheItem :=
  { item with aboutToExpire := [] }

/-- The method `AddAboutToExpireCallback`. -/
def CacheItem.AddAboutToExpireCallback (item : CacheItem) (f : CallbackId) : CacheItem :=
  { item with aboutToExpire := item.aboutToExpire ++ [f] }

/-- The method `SetAboutToExpireCallback`. -/
def CacheItem.SetAboutToExpireCallback (item : CacheItem) (f : CallbackId) : CacheItem :=
  let item := if item.aboutToExpire.length > 0 then item.RemoveAboutToExpireCallback else item
  { item with aboutToExpire := item.aboutToExpire ++ [f] }

/-! ## Setters, `Foreach` and `MostAccessed` of `CacheTable` (cachetable.go) -/

/-- Assign `table.addedItem`. -/
def World.setAddedItem (w : World) (cbs : List CallbackId) : World :=
  { w with table := { w.table with addedItem := cbs } }

/-- Assign `table.aboutToDeleteItem`. -/
def World.setAboutToDeleteItem (w : World) (cbs : List CallbackId) : World :=
  { w with table := { w.table with aboutToDeleteItem := cbs } }

/-- The method `SetDataLoader`. -/
def CacheTable.SetDataLoader (f : Key → List Data → Option CacheItem) (w : World) :
    Except Fault World := do
  let w ← CacheTable.Lock w
  let w : World := { w with table := { w.table with loadData := some f } }
  CacheTable.Unlock w

/-- The method `RemoveAddedItemCallbacks`. -/
def CacheTable.RemoveAddedItemCallbacks (w : World) : Except Fault World := do
  let w ← CacheTable.Lock w
  let w := w.setAddedItem []
  CacheTable.Unlock w

/-- The method `AddAddedItemCallback`. -/
def CacheTable.AddAddedItemCallback (f : CallbackId) (w : World) : Except Fault World := do
  let w ← CacheTable.Lock w
  let w := w.setAddedItem (w.table.addedItem ++ [f])
  CacheTable.Unlock w

/-- The method `SetAddedItemCallback`. -/
def CacheTable.SetAddedItemCallback (f : CallbackId) (w : World) : Except Fault World := do
  let w ← if w.table.addedItem.length > 0 then CacheTable.RemoveAddedItemCallbacks w else pure w
  let w ← CacheTable.Lock w
  let w := w.setAddedItem (w.table.addedItem ++ [f])
  CacheTable.Unlock w

/-- The method `RemoveAboutToDeleteItemCallback`. -/
def CacheTable.RemoveAboutToDeleteItemCallback (w : World) : Except Fault World := do
  let w ← CacheTable.Lock w
  let w := w.setAboutToDeleteItem []
  CacheTable.Unlock w

/-- The method `AddAboutToDeleteItemCallback`. -/
def CacheTable.AddAboutToDeleteItemCallback (f : CallbackId) (w : World) :
    Except Fault World := do
  let w ← CacheTable.Lock w
  let w := w.setAboutToDeleteItem (w.table.aboutToDeleteItem ++ [f])
  CacheTable.Unlock w

/-- The method `SetAboutToDeleteItemCallback`. -/
def CacheTable.SetAboutToDeleteItemCallback (f : CallbackId) (w : World) :
    Except Fault World := do
  let w ← if w.table.aboutToDeleteItem.length > 0 then
      CacheTable.RemoveAboutToDeleteItemCallback w else pure w
  let w ← CacheTable.Lock w
  let w := w.setAboutToDeleteItem (w.table.aboutToDeleteItem ++ [f])
  CacheTable.Unlock w

/-- The method `Foreach`; the visitor `trans` is opaque and its calls are
recorded. -/
def CacheTable.Foreach (trans : CallbackId) (w : World) : Except Fault World := do
  let w ← CacheTable.RLock w
  let w := w.emits (w.table.items.entries.map (fun e => Event.trans trans e.1 e.2))
  CacheTable.RUnlock w

/-- The struct `CacheItemPair`. -/
structure CacheItemPair where
  Key : Key
  AccessCount : Int
deriving DecidableEq

/-- The type `CacheItemPairList`. -/
abbrev CacheItemPairList := List CacheItemPair

/-- The method `Less`, on the elements at the two indices. -/
def CacheItemPairList.Less (a b : CacheItemPair) : Bool :=
  decide (a.AccessCount < b.AccessCount)

/-- The library call `sort.Sort(p)`: afterwards no element is `Less` than an
element before it. The library leaves the order of elements that are not
`Less` than one another unspecified; this sort keeps them in their order. -/
def sortSort (p : CacheItemPairList) : CacheItemPairList :=
  p.insertionSort (fun a b => CacheItemPairList.Less b a = false)

/-- The loop `for _, v := range p` of `MostAccessed`; the arguments after the
pairs still to visit are the counter `c` (an `int64`) and the result `r`. -/
def mostAccessedLoop (items : Items) (count : Int) :
    List CacheItemPair → Int → List CacheItem → List CacheItem
  | [], _, r => r
  | v :: rest, c, r =>
    if c ≥ count then r
    else
      match items.lookup v.Key with
      | some item => mostAccessedLoop items count rest (wrapInt64 (c + 1)) (r ++ [item])
      | none => mostAccessedLoop items count rest (wrapInt64 (c + 1)) r

/-- The method `MostAccessed`. -/
def CacheTable.MostAccessed (count : Int) (w : World) :
    Except Fault (List CacheItem × World) := do
  let w ← CacheTable.RLock w
  let p : CacheItemPairList :=
    w.table.items.entries.map (fun e => (⟨e.1, e.2.accessdCount⟩ : CacheItemPair))
  let p := sortSort p
  let r := mostAccessedLoop w.table.items count p 0 []
  let w ← CacheTable.RUnlock w
  pure (r, w)

/-! ## Closed forms of the results, used to state what the operations do -/

/-- The mutex held by one writer. -/
def RWMutex.held : RWMutex := ⟨0, true⟩

/-- The sweep's expiry test on an item. -/
def expired (now : Time) (item : CacheItem) : Prop :=
  item.lifeSpan ≠ 0 ∧ Time.Sub now item.accessdOn ≥ item.lifeSpan

instance (now : Time) (item : CacheItem) : Decidable (expired now item) := by
  unfold expired; infer_instance

/-- The events of one `deleteInternal` that finds `r` under `key`. -/
def deleteEvents (atd : List CallbackId) (key : Key) (r : CacheItem) (view : Items) : List Event :=
  [Event.Unlock]
    ++ atd.map (fun cb => Event.aboutToDeleteItem cb r view)
    ++ r.aboutToExpire.map (fun cb => Event.aboutToExpire cb key view)
    ++ [Event.Lock]

/-- The map left by the sweep loop over the entries `es`. -/
def eraseExpired (now : Time) : List (Sigma fun _ : Key => CacheItem) → Items → Items
  | [], m => m
  | ⟨key, item⟩ :: rest, m =>
    if expired now item then eraseExpired now rest (m.erase key) else eraseExpired now rest m

/-- The events of the sweep loop over the entries `es`. -/
def sweepEvents (now : Time) (atd : List CallbackId) :
    List (Sigma fun _ : Key => CacheItem) → Items → List Event
  | [], _ => []
  | ⟨key, item⟩ :: rest, m =>
    if expired now item then
      match m.lookup key with
      | some r => deleteEvents atd key r m ++ sweepEvents now atd rest (m.erase key)
      | none => sweepEvents now atd rest m
    else sweepEvents now atd rest m

/-- The value of `smallestDuration` after the sweep loop over the entries `es`. -/
def smallestAfter (now : Time) : List (Sigma fun _ : Key => CacheItem) → Duration → Duration
  | [], sm => sm
  | ⟨_, item⟩ :: rest, sm =>
    if expired now item ∨ item.lifeSpan = 0 then smallestAfter now rest sm
    else if sm = 0 ∨ wrapInt64 (item.lifeSpan - Time.Sub now item.accessdOn) < sm then
      smallestAfter now rest (wrapInt64 (item.lifeSpan - Time.Sub now item.accessdOn))
    else smallestAfter now rest sm

/-- The table left by one pass of the sweep. -/
def sweepTable (now : Time) (t : CacheTable) : CacheTable :=
  { t with
    items := eraseExpired now t.items.entries t.items
    cleanupInterval := smallestAfter now t.items.entries 0
    cleanupTimer :=
      if smallestAfter now t.items.entries 0 > 0 then
        some ⟨smallestAfter now t.items.entries 0, true⟩
      else t.cleanupTimer.map Timer.Stop }

/-- The table left by `addInternal`, apart from the mutex. -/
def addTable (item : CacheItem) (tSweep : Time) (t : CacheTable) : CacheTable :=
  if item.lifeSpan > 0 ∧ (t.cleanupInterval = 0 ∨ item.lifeSpan < t.cleanupInterval) then
    sweepTable tSweep { t with items := t.items.insert item.key item }
  else { t with items := t.items.insert item.key item }

/-- The events of `addInternal`. -/
def addEvents (item : CacheItem) (tSweep : Time) (t : CacheTable) : List Event :=
  [Event.Unlock]
    ++ t.addedItem.map (fun cb => Event.addedItem cb item (t.items.insert item.key item))
    ++ (if item.lifeSpan > 0 ∧ (t.cleanupInterval = 0 ∨ item.lifeSpan < t.cleanupInterval) then
          [Event.Lock]
            ++ sweepEvents tSweep t.aboutToDeleteItem (t.items.insert item.key item).entries
                (t.items.insert item.key item)
            ++ [Event.Unlock]
        else [])

/-! ## Example states -/

/-- An entry that has been read three times and carries two expire callbacks. -/
def exampleItem : CacheItem where
  key := 1
  data := Data.atom 10
  lifeSpan := 100 * Millisecond
  createdOn := 0
  accessdOn := 20 * Millisecond
  accessdCount := 3
  aboutToExpire := [7, 8]

/-- An entry that never expires. -/
def exampleForever : CacheItem where
  key := 2
  data := Data.atom 20
  lifeSpan := 0
  createdOn := 0
  accessdOn := 0
  accessdCount := 0
  aboutToExpire := [9]

/-- A table holding `exampleItem` under key 1 and `exampleForever` under key 2,
with one on-add callback, two about-to-delete callbacks and a sweep due. -/
def exampleTable : CacheTable where
  mutex := RWMutex.free
  name := "example"
  items := ((∅ : Items).insert 2 exampleForever).insert 1 exampleItem
  cleanupTimer := some ⟨100 * Millisecond, true⟩
  cleanupInterval := 100 * Millisecond
  loadData := none
  addedItem := [5]
  aboutToDeleteItem := [3, 4]

/-- The example table with an empty trace. -/
def exampleWorld : World := ⟨exampleTable, []⟩

/-- A loader that knows key 4 only: it returns an entry with TTL 0 and value 44. -/
def exampleLoader (key : Key) (_args : List Data) : Option CacheItem :=
  if key = 4 then some (NewCacheItem 4 0 (Data.atom 44) 0) else none

/-- An empty table with `exampleLoader` configured. -/
def exampleLoaderWorld : World :=
  ⟨{ Cache "loaded" with loadData := some exampleLoader }, []⟩

/-- The removals of the sweep loop over the entries `es`, in the order in which
they happen: the key, the entry found under it and the table map at the moment
`deleteInternal` is entered. -/
def sweepRemovals (now : Time) :
    List (Sigma fun _ : Key => CacheItem) → Items → List (Key × CacheItem × Items)
  | [], _ => []
  | ⟨key, item⟩ :: rest, m =>
    if expired now item then
      match m.lookup key with
      | some r => (key, r, m) :: sweepRemovals now rest (m.erase key)
      | none => sweepRemovals now rest m
    else sweepRemovals now rest m

/-! ## Sequences of operations -/

/-- One call on the table, with the clock readings it makes. -/
inductive Step where
  | sweep (now : Time)
  | value (key : Key) (args : List Data) (tAccess tCreate tSweep : Time)
  | add (key : Key) (lifeSpan : Duration) (data : Data) (tCreate tSweep : Time)
  | notFoundAdded (key : Key) (lifeSpan : Duration) (data : List Data) (tCreate tSweep : Time)
  | delete (key : Key)
  | flush

/-- Run one call and keep the world it leaves. -/
def Step.run : Step → World → Except Fault World
  | .sweep now, w => CacheTable.expirationCheck now w
  | .value key args tAccess tCreate tSweep, w =>
    Prod.snd <$> CacheTable.Value key args tAccess tCreate tSweep w
  | .add key lifeSpan data tCreate tSweep, w =>
    Prod.snd <$> CacheTable.Add key lifeSpan data tCreate tSweep w
  | .notFoundAdded key lifeSpan data tCreate tSweep, w =>
    Prod.snd <$> CacheTable.NotFoundAdded key lifeSpan data tCreate tSweep w
  | .delete key, w => Prod.snd <$> CacheTable.Delete key w
  | .flush, w => CacheTable.Flush w

/-- Run the calls one after the other. -/
def runSteps : List Step → World → Except Fault World
  | [], w => pure w
  | s :: rest, w => s.run w >>= runSteps rest

/-- The call is neither a `Flush` nor an `Add`, `NotFoundAdded` or `Delete` on
the key `k`. -/
def Step.spares (k : Key) : Step → Prop
  | .sweep _ => True
  | .value _ _ _ _ _ => True
  | .add key _ _ _ _ => key ≠ k
  | .notFoundAdded key _ _ _ _ => key ≠ k
  | .delete key => key ≠ k
  | .flush => False

/-- Whether the call is a `Value`. -/
def Step.isValue : Step → Bool
  | .value _ _ _ _ _ => true
  | _ => false

/-- Calls that leave key 9 alone: sweeps at late clock readings and adds,
conditional adds and deletes on other keys. -/
def exampleSteps : List Step :=
  [Step.sweep (1000 * Millisecond),
   Step.add 5 (10 * Millisecond) (Data.atom 50) (1000 * Millisecond) (1000 * Millisecond),
   Step.delete 1,
   Step.notFoundAdded 6 (20 * Millisecond) [Data.atom 60] (1001 * Millisecond)
     (1001 * Millisecond),
   Step.sweep (3600000 * Millisecond)]

/-- The call `Add(key, 0, data)` with its two clock readings, as a step. -/
def addForever (a : Key × Data × Time × Time) : Step :=
  Step.add a.1 0 a.2.1 a.2.2.1 a.2.2.2

/-- Three adds with TTL 0 on the distinct keys 11, 12 and 13. -/
def exampleAdds : List (Key × Data × Time × Time) :=
  [(11, Data.atom 1, 0, 0), (12, Data.atom 2, 5, 5), (13, Data.atom 3, 7, 8)]

/-- The pairs `MostAccessed` builds from the table map, before sorting. -/
def accessPairs (items : Items) : CacheItemPairList :=
  items.entries.map (fun e => (⟨e.1, e.2.accessdCount⟩ : CacheItemPair))

/-- An entry with the given key and access count, TTL 0. -/
def countedItem (key : Key) (count : Int) : CacheItem where
  key := key
  data := Data.atom key
  lifeSpan := 0
  createdOn := 0
  accessdOn := 0
  accessdCount := count
  aboutToExpire := []

/-- A table whose entries under the keys 1, 2 and 3 have been read 1, 5 and 3
times. -/
def exampleCountsWorld : World :=
  ⟨{ Cache "counts" with
      items := (((∅ : Items).insert 3 (countedItem 3 3)).insert 2 (countedItem 2 5)).insert 1
        (countedItem 1 1) }, []⟩

/-- The calls `KeepAlive` on an entry, one for each clock reading of the list. -/
def keepAlives (item : CacheItem) (ts : List Time) : CacheItem :=
  ts.foldl CacheItem.KeepAlive item

/-- The remaining life `ttl - (now - lastAccessAt)` of an entry, as an integer. -/
def remaining (now : Time) (item : CacheItem) : Int :=
  item.lifeSpan - Time.Sub now item.accessdOn

/-- The entry survives a sweep at `now` and has a finite TTL. -/
def finiteSurvivor (now : Time) (item : CacheItem) : Prop :=
  item.lifeSpan ≠ 0 ∧ ¬ expired now item

/-- A table whose only entry has the largest TTL and was last read at time 1. -/
def exampleLongLivedWorld : World :=
  ⟨{ Cache "long" with
      items := (∅ : Items).insert 1
        { key := 1, data := Data.atom 1, lifeSpan := 9223372036854775807, createdOn := 0,
          accessdOn := 1, accessdCount := 1, aboutToExpire := [] } }, []⟩

/-- The clock readings of the call are in order and not earlier than `lo`. -/
def Step.timely (lo : Time) : Step → Prop
  | .sweep now => lo ≤ now
  | .add _ _ _ tCreate tSweep => lo ≤ tCreate ∧ tCreate ≤ tSweep
  | .notFoundAdded _ _ _ tCreate tSweep => lo ≤ tCreate ∧ tCreate ≤ tSweep
  | _ => True

/-- The latest clock reading of the call, or `lo` when it makes none. -/
def Step.latest (lo : Time) : Step → Time
  | .sweep now => now
  | .add _ _ _ _ tSweep => tSweep
  | .notFoundAdded _ _ _ _ tSweep => tSweep
  | _ => lo

/-- The clock readings of the calls, taken one after the other, never go back,
starting from `lo`. -/
def timelySteps (lo : Time) : List Step → Prop
  | [] => True
  | s :: rest => s.timely lo ∧ timelySteps (s.latest lo) rest

/-- The latest clock reading of the calls, or `lo` when they make none. -/
def latestSteps (lo : Time) : List Step → Time
  | [] => lo
  | s :: rest => latestSteps (s.latest lo) rest

/-- The TTL passed to the call is a value of type `time.Duration`. -/
def Step.typed : Step → Prop
  | .add _ lifeSpan _ _ _ => minInt64 ≤ lifeSpan ∧ lifeSpan ≤ maxInt64
  | .notFoundAdded _ lifeSpan _ _ _ => minInt64 ≤ lifeSpan ∧ lifeSpan ≤ maxInt64
  | _ => True

/-- The entries of the table were last read at `now` at the latest and their
TTL is a value of type `time.Duration`; the lock is free and the scheduling
interval is not negative. -/
def Timed (now : Time) (t : CacheTable) : Prop :=
  t.mutex = RWMutex.free ∧ 0 ≤ t.cleanupInterval ∧
    ∀ k item, t.items.lookup k = some item → item.accessdOn ≤ now ∧ item.lifeSpan ≤ maxInt64

/-- The scheduling invariant: a table that holds an entry with a positive TTL
has a positive scheduling interval. -/
def Scheduled (t : CacheTable) : Prop :=
  (∃ k item, t.items.lookup k = some item ∧ 0 < item.lifeSpan) → 0 < t.cleanupInterval

/-- Calls at clock readings that never go back: two adds with a TTL, a sweep,
a delete, a flush and a conditional add. -/
def exampleSchedule : List Step :=
  [Step.add 1 (100 * Millisecond) (Data.atom 1) 0 0,
   Step.add 2 (300 * Millisecond) (Data.atom 2) (10 * Millisecond) (10 * Millisecond),
   Step.sweep (150 * Millisecond),
   Step.delete 1,
   Step.flush,
   Step.notFoundAdded 3 (50 * Millisecond) [Data.atom 3] (200 * Millisecond)
     (200 * Millisecond)]

/-! ## Basic facts about the operations -/

theorem Lock_of_free (w : World) (h : w.table.mutex = RWMutex.free) :
    CacheTable.Lock w = .ok ((w.setMutex RWMutex.held).emit Event.Lock) := by
  simp [CacheTable.Lock, RWMutex.Lock, h, RWMutex.free, RWMutex.held, bind, Except.bind, pure, Except.pure]

theorem Unlock_of_held (w : World) (h : w.table.mutex = RWMutex.held) :
    CacheTable.Unlock w = .ok ((w.setMutex RWMutex.free).emit Event.Unlock) := by
  simp [CacheTable.Unlock, RWMutex.Unlock, h, RWMutex.free, RWMutex.held, bind, Except.bind, pure, Except.pure]

theorem deleteInternal_absent (key : Key) (w : World) (h : w.table.items.lookup key = none) :
    CacheTable.deleteInternal key w = .ok (.error CacheError.ErrKeyNotFound, w) := by
  simp [CacheTable.deleteInternal, h, pure, Except.pure]

theorem deleteInternal_present (key : Key) (r : CacheItem) (w : World)
    (hm : w.table.mutex = RWMutex.held) (h : w.table.items.lookup key = some r) :
    CacheTable.deleteInternal key w = .ok (.ok r,
      { table := { w.table with items := w.table.items.erase key }
        trace := w.trace ++ [Event.Unlock]
          ++ w.table.aboutToDeleteItem.map (fun cb => Event.aboutToDeleteItem cb r w.table.items)
          ++ r.aboutToExpire.map (fun cb => Event.aboutToExpire cb key w.table.items)
          ++ [Event.Lock] }) := by
  simp [CacheTable.deleteInternal, h, Unlock_of_held w hm, bind, Except.bind, pure, Except.pure]
  rw [Lock_of_free]
  · simp [World.setItems, World.emit, World.emits, World.setMutex, runAboutToExpire, runAboutToDeleteItem, ← hm]
  · simp [World.setItems, World.emit, World.emits, World.setMutex, runAboutToExpire, runAboutToDeleteItem]

theorem erase_of_lookup_none (m : Items) (k : Key) (h : m.lookup k = none) : m.erase k = m := by
  apply AList.ext
  have : k ∉ m.entries.keys := by
    rw [AList.lookup_eq_none] at h
    exact h
  simp [AList.erase, List.kerase_of_not_mem_keys this]

theorem sweepLoop_spec (now : Time) (es : List (Sigma fun _ : Key => CacheItem)) :
    ∀ (sm : Duration) (w : World), w.table.mutex = RWMutex.held →
      sweepLoop now es sm w = .ok (smallestAfter now es sm,
        { table := { w.table with items := eraseExpired now es w.table.items }
          trace := w.trace ++ sweepEvents now w.table.aboutToDeleteItem es w.table.items }) := by
  induction es with
  | nil => intro sm w _; simp [sweepLoop, smallestAfter, eraseExpired, sweepEvents, pure, Except.pure]
  | cons e rest ih =>
    intro sm w hm
    obtain ⟨key, item⟩ := e
    by_cases h0 : item.lifeSpan = 0
    · have hne : ¬ expired now item := fun h => h.1 h0
      simp [sweepLoop, smallestAfter, eraseExpired, sweepEvents, h0, hne, ih sm w hm]
    · by_cases hx : Time.Sub now item.accessdOn ≥ item.lifeSpan
      · have he : expired now item := ⟨h0, hx⟩
        cases hl : w.table.items.lookup key with
        | none =>
          simp [sweepLoop, smallestAfter, eraseExpired, sweepEvents, h0, hx, he, hl,
            deleteInternal_absent key w hl, bind, Except.bind, ih sm w hm,
            erase_of_lookup_none _ _ hl]
        | some r =>
          simp [sweepLoop, smallestAfter, eraseExpired, sweepEvents, h0, hx, he, hl,
            deleteInternal_present key r w hm hl, bind, Except.bind]
          rw [ih]
          · simp [deleteEvents, List.append_assoc]
          · exact hm
      · have hne : ¬ expired now item := fun h => hx h.2
        by_cases hs : sm = 0 ∨ wrapInt64 (item.lifeSpan - Time.Sub now item.accessdOn) < sm
        · simp [sweepLoop, smallestAfter, eraseExpired, sweepEvents, h0, hx, hne, hs, ih _ w hm]
        · simp [sweepLoop, smallestAfter, eraseExpired, sweepEvents, h0, hx, hne, hs, ih _ w hm]

theorem expirationCheck_spec (now : Time) (w : World) (hm : w.table.mutex = RWMutex.free) :
    CacheTable.expirationCheck now w = .ok
      { table := sweepTable now w.table
        trace := w.trace ++ [Event.Lock]
          ++ sweepEvents now w.table.aboutToDeleteItem w.table.items.entries w.table.items
          ++ [Event.Unlock] } := by
  simp only [CacheTable.expirationCheck, Lock_of_free w hm, bind, Except.bind]
  rw [sweepLoop_spec]
  · simp only []
    rw [Unlock_of_held]
    · simp [schedule, stopCleanupTimer, World.setMutex, World.emit, sweepTable, ← hm]
    · simp [schedule, stopCleanupTimer, World.setMutex, World.emit]
  · simp [stopCleanupTimer, World.setMutex, World.emit]

theorem lookup_eraseExpired_of_not (now : Time) (k : Key)
    (es : List (Sigma fun _ : Key => CacheItem)) :
    ∀ m : Items, (∀ e ∈ es, e.1 = k → ¬ expired now e.2) →
      (eraseExpired now es m).lookup k = m.lookup k := by
  induction es with
  | nil => intro m _; simp [eraseExpired]
  | cons e rest ih =>
    intro m h
    obtain ⟨key, item⟩ := e
    have hrest : ∀ e ∈ rest, e.1 = k → ¬ expired now e.2 :=
      fun e he => h e (List.mem_cons_of_mem _ he)
    by_cases he : expired now item
    · have hk : k ≠ key := fun hc => h ⟨key, item⟩ (List.mem_cons_self _ _) hc.symm he
      simp only [eraseExpired, he, if_true]
      rw [ih _ hrest, AList.lookup_erase_ne hk]
    · simp only [eraseExpired, he, if_false]
      exact ih _ hrest

theorem lookup_eraseExpired_of_mem (now : Time) (k : Key)
    (es : List (Sigma fun _ : Key => CacheItem)) :
    ∀ m : Items, (∃ e ∈ es, e.1 = k ∧ expired now e.2) →
      (eraseExpired now es m).lookup k = none := by
  induction es with
  | nil => intro m h; obtain ⟨e, he, _⟩ := h; cases he
  | cons e rest ih =>
    intro m h
    obtain ⟨key, item⟩ := e
    by_cases hr : ∃ e ∈ rest, e.1 = k ∧ expired now e.2
    · by_cases he : expired now item
      · simp only [eraseExpired, he, if_true]; exact ih _ hr
      · simp only [eraseExpired, he, if_false]; exact ih _ hr
    · obtain ⟨e, hmem, hk, hx⟩ := h
      rcases List.mem_cons.mp hmem with heq | hmem
      · subst heq
        simp only at hk hx
        subst hk
        have hn : ∀ e ∈ rest, e.1 = key → ¬ expired now e.2 :=
          fun e he hk hx => hr ⟨e, he, hk, hx⟩
        simp only [eraseExpired, hx, if_true]
        rw [lookup_eraseExpired_of_not now key rest _ hn, AList.lookup_erase]
      · exact absurd ⟨e, hmem, hk, hx⟩ hr

theorem lookup_sweep (now : Time) (k : Key) (m : Items) :
    (eraseExpired now m.entries m).lookup k =
      (m.lookup k).filter (fun item => ¬ expired now item) := by
  cases h : m.lookup k with
  | none =>
    have hk : k ∉ m := AList.lookup_eq_none.mp h
    rw [lookup_eraseExpired_of_not, h]
    · rfl
    · intro e he hek
      subst hek
      exact absurd (AList.mem_keys.mpr (List.mem_keys_of_mem he)) hk
  | some item =>
    have hmem : Sigma.mk k item ∈ m.entries := AList.mem_lookup_iff.mp (by simp [h])
    by_cases he : expired now item
    · rw [lookup_eraseExpired_of_mem now k _ _ ⟨⟨k, item⟩, hmem, rfl, he⟩]
      simp [Option.filter, he]
    · rw [lookup_eraseExpired_of_not, h]
      · simp [Option.filter, he]
      · intro e hmem2 hek
        obtain ⟨k2, item2⟩ := e
        simp only at hek
        subst hek
        have : item2 ∈ m.lookup k2 := AList.mem_lookup_iff.mpr hmem2
        rw [h] at this
        simp at this
        subst this
        exact he

theorem addInternal_spec (item : CacheItem) (tSweep : Time) (w : World)
    (hm : w.table.mutex = RWMutex.held) :
    CacheTable.addInternal item tSweep w = .ok
      { table := addTable item tSweep { w.table with mutex := RWMutex.free }
        trace := w.trace ++ addEvents item tSweep w.table } := by
  simp only [CacheTable.addInternal, bind, Except.bind]
  rw [Unlock_of_held _ (by simpa [World.setItems] using hm)]
  simp only []
  by_cases hc : item.lifeSpan > 0 ∧ (w.table.cleanupInterval = 0 ∨ item.lifeSpan < w.table.cleanupInterval)
  · rw [if_pos (by simpa [World.setItems] using hc)]
    rw [expirationCheck_spec _ _ (by simp [runAddedItem, World.emits, World.emit, World.setMutex])]
    simp [addTable, addEvents, hc, runAddedItem, World.emits, World.emit, World.setMutex,
      World.setItems, sweepTable]
  · rw [if_neg (by simpa [World.setItems] using hc)]
    simp [addTable, addEvents, hc, runAddedItem, World.emits, World.emit, World.setMutex,
      World.setItems, pure, Except.pure]

theorem Add_spec (key : Key) (lifeSpan : Duration) (data : Data) (tCreate tSweep : Time)
    (w : World) (hm : w.table.mutex = RWMutex.free) :
    CacheTable.Add key lifeSpan data tCreate tSweep w = .ok
      (NewCacheItem key lifeSpan data tCreate,
        { table := addTable (NewCacheItem key lifeSpan data tCreate) tSweep w.table
          trace := w.trace ++ Event.Lock
            :: addEvents (NewCacheItem key lifeSpan data tCreate) tSweep w.table }) := by
  simp only [CacheTable.Add, bind, Except.bind, Lock_of_free w hm]
  rw [addInternal_spec _ _ _ (by simp [World.emit, World.setMutex])]
  simp [pure, Except.pure, World.emit, World.setMutex, ← hm, addEvents]

theorem RLock_of_free (w : World) (h : w.table.mutex = RWMutex.free) :
    CacheTable.RLock w = .ok ((w.setMutex ⟨1, false⟩).emit Event.RLock) := by
  simp [CacheTable.RLock, RWMutex.RLock, h, RWMutex.free, bind, Except.bind, pure, Except.pure]

theorem table_eta_free (t : CacheTable) (h : t.mutex = RWMutex.free) :
    ({ t with mutex := ⟨0, false⟩ } : CacheTable) = t := by
  cases t; simp_all [RWMutex.free]

theorem Exists_spec (key : Key) (w : World) (hm : w.table.mutex = RWMutex.free) :
    CacheTable.Exists key w = .ok ((w.table.items.lookup key).isSome,
      { table := w.table, trace := w.trace ++ [Event.RLock, Event.RUnlock] }) := by
  simp [CacheTable.Exists, RLock_of_free w hm, CacheTable.RUnlock, RWMutex.RUnlock, bind,
    Except.bind, pure, Except.pure, World.setMutex, World.emit, table_eta_free _ hm]

theorem Count_spec (w : World) (hm : w.table.mutex = RWMutex.free) :
    CacheTable.Count w = .ok (w.table.items.entries.length,
      { table := w.table, trace := w.trace ++ [Event.RLock, Event.RUnlock] }) := by
  simp [CacheTable.Count, RLock_of_free w hm, CacheTable.RUnlock, RWMutex.RUnlock, bind,
    Except.bind, pure, Except.pure, World.setMutex, World.emit, table_eta_free _ hm]

theorem Delete_absent (key : Key) (w : World) (hm : w.table.mutex = RWMutex.free)
    (h : w.table.items.lookup key = none) :
    CacheTable.Delete key w = .ok (.error CacheError.ErrKeyNotFound,
      { table := w.table, trace := w.trace ++ [Event.Lock, Event.Unlock] }) := by
  simp only [CacheTable.Delete, bind, Except.bind, Lock_of_free w hm]
  rw [deleteInternal_absent _ _ (by simpa [World.emit, World.setMutex] using h)]
  simp only []
  rw [Unlock_of_held _ (by simp [World.emit, World.setMutex])]
  simp [pure, Except.pure, World.emit, World.setMutex, ← hm]

theorem Delete_present (key : Key) (r : CacheItem) (w : World)
    (hm : w.table.mutex = RWMutex.free) (h : w.table.items.lookup key = some r) :
    CacheTable.Delete key w = .ok (.ok r,
      { table := { w.table with items := w.table.items.erase key }
        trace := w.trace ++ [Event.Lock]
          ++ deleteEvents w.table.aboutToDeleteItem key r w.table.items
          ++ [Event.Unlock] }) := by
  simp only [CacheTable.Delete, bind, Except.bind, Lock_of_free w hm]
  rw [deleteInternal_present key r _ (by simp [World.emit, World.setMutex])
    (by simpa [World.emit, World.setMutex] using h)]
  simp only []
  rw [Unlock_of_held _ (by simp [World.emit, World.setMutex])]
  simp [pure, Except.pure, World.emit, World.setMutex, ← hm, deleteEvents]

theorem length_erase_of_lookup (m : Items) (key : Key) (r : CacheItem)
    (h : m.lookup key = some r) : (m.erase key).entries.length + 1 = m.entries.length := by
  have hk : key ∈ m.entries.keys := AList.mem_keys.mp (AList.lookup_isSome.mp (by simp [h]))
  obtain ⟨b, l₁, l₂, _, h1, h2⟩ := List.exists_of_kerase hk
  simp only [AList.erase, h2]
  rw [h1]
  simp
  omega

theorem NotFoundAdded_present (key : Key) (lifeSpan : Duration) (data : List Data)
    (tCreate tSweep : Time) (r : CacheItem) (w : World) (hm : w.table.mutex = RWMutex.free)
    (h : w.table.items.lookup key = some r) :
    CacheTable.NotFoundAdded key lifeSpan data tCreate tSweep w = .ok (false,
      { table := w.table, trace := w.trace ++ [Event.Lock, Event.Unlock] }) := by
  simp only [CacheTable.NotFoundAdded, bind, Except.bind, Lock_of_free w hm]
  have h2 : ((w.setMutex RWMutex.held).emit Event.Lock).table.items.lookup key = some r := by
    simpa [World.emit, World.setMutex] using h
  simp only [h2]
  rw [Unlock_of_held _ (by simp [World.emit, World.setMutex])]
  simp [pure, Except.pure, World.emit, World.setMutex, ← hm]

theorem NotFoundAdded_absent (key : Key) (lifeSpan : Duration) (data : List Data)
    (tCreate tSweep : Time) (w : World) (hm : w.table.mutex = RWMutex.free)
    (h : w.table.items.lookup key = none) :
    CacheTable.NotFoundAdded key lifeSpan data tCreate tSweep w = .ok (true,
      { table := addTable (NewCacheItem key lifeSpan (Data.slice data) tCreate) tSweep w.table
        trace := w.trace ++ Event.Lock
          :: addEvents (NewCacheItem key lifeSpan (Data.slice data) tCreate) tSweep w.table }) := by
  simp only [CacheTable.NotFoundAdded, bind, Except.bind, Lock_of_free w hm]
  have h2 : ((w.setMutex RWMutex.held).emit Event.Lock).table.items.lookup key = none := by
    simpa [World.emit, World.setMutex] using h
  simp only [h2]
  rw [addInternal_spec _ _ _ (by simp [World.emit, World.setMutex])]
  simp [pure, Except.pure, World.emit, World.setMutex, ← hm, addEvents]

theorem Value_faults (key : Key) (args : List Data) (tAccess tCreate tSweep : Time) (w : World) :
    CacheTable.Value key args tAccess tCreate tSweep w =
      .error (if w.table.mutex.writer = true then Fault.blocked else Fault.unlockOfUnlocked) := by
  by_cases hw : w.table.mutex.writer = true
  · simp [CacheTable.Value, CacheTable.RLock, RWMutex.RLock, hw, bind, Except.bind]
  · simp [CacheTable.Value, CacheTable.RLock, CacheTable.Unlock, RWMutex.RLock, RWMutex.Unlock, hw,
      bind, Except.bind, pure, Except.pure, World.setMutex, World.emit]

theorem Time.Sub_self (t : Time) : Time.Sub t t = 0 := by
  simp [Time.Sub, clampInt64, minInt64, maxInt64]

/-! ## The claims -/

/-- What `Add` returns and stores when the sweep reads the clock of the creation. -/
theorem Add_stores_fresh_entry (w : World) (key : Key) (ttl : Duration)
    (v : Data) (now : Time) (hfree : w.table.mutex = RWMutex.free) :
    ∃ item w', CacheTable.Add key ttl v now now w = .ok (item, w') ∧
      item = { key := key, data := v, lifeSpan := ttl, createdOn := now, accessdOn := now,
               accessdCount := 0, aboutToExpire := [] } ∧
      w'.table.items.lookup key = some item ∧
      w'.table.mutex = RWMutex.free := by
  refine ⟨_, _, Add_spec key ttl v now now w hfree, rfl, ?_, ?_⟩
  · simp only [addTable]
    split
    · rename_i hc
      simp only [sweepTable, lookup_sweep, AList.lookup_insert]
      have hne : ¬ expired now (NewCacheItem key ttl v now) := by
        intro hx
        have h1 := hx.2
        have h2 := hc.1
        simp only [NewCacheItem, Time.Sub_self] at h1 h2
        exact absurd h2 (not_lt.mpr h1)
      simp [Option.filter, NewCacheItem]
      exact hne
    · simp [AList.lookup_insert, NewCacheItem]
  · simp only [addTable]
    split <;> simp [sweepTable, hfree]

/-- C1: for every table state (lock free), key, TTL and value, present key or
not, `Add` returns a freshly created entry (key, value and TTL as given, access
count 0, creation and last-access time the clock reading, no expire callback)
and, the sweep reading the same clock, the table then maps the key to exactly
that entry. The bound `ttl >= 0` of the claim is not needed. -/
theorem Add_returns_fresh_entry_and_stores_it (w : World) (key : Key) (ttl : Duration)
    (v : Data) (now : Time) (hfree : w.table.mutex = RWMutex.free) :
    ∃ item w', CacheTable.Add key ttl v now now w = .ok (item, w') ∧
      item = { key := key, data := v, lifeSpan := ttl, createdOn := now, accessdOn := now,
               accessdCount := 0, aboutToExpire := [] } ∧
      w'.table.items.lookup key = some item ∧
      w'.table.mutex = RWMutex.free :=
  Add_stores_fresh_entry w key ttl v now hfree

/-- Witness of C1: the key is present beforehand with access metadata and
expire callbacks of its own. -/
theorem Add_returns_fresh_entry_and_stores_it_witness :
    exampleWorld.table.mutex = RWMutex.free ∧
    exampleWorld.table.items.lookup 1 = some exampleItem ∧
    ∃ item w', CacheTable.Add 1 (50 * Millisecond) (Data.atom 11) 30 30 exampleWorld
        = .ok (item, w') ∧
      item = { key := 1, data := Data.atom 11, lifeSpan := 50 * Millisecond, createdOn := 30,
               accessdOn := 30, accessdCount := 0, aboutToExpire := [] } ∧
      w'.table.items.lookup 1 = some item ∧
      w'.table.mutex = RWMutex.free :=
  ⟨rfl, by decide, Add_returns_fresh_entry_and_stores_it exampleWorld 1 (50 * Millisecond)
    (Data.atom 11) 30 rfl⟩

theorem Exists_result (key : Key) (w : World) (hm : w.table.mutex = RWMutex.free) :
    Prod.fst <$> CacheTable.Exists key w = .ok (w.table.items.lookup key).isSome := by
  rw [Exists_spec key w hm]; rfl

theorem Count_result (w : World) (hm : w.table.mutex = RWMutex.free) :
    Prod.fst <$> CacheTable.Count w = .ok w.table.items.entries.length := by
  rw [Count_spec w hm]; rfl

/-- C2 (code at the failing input): `Value` on the key 1, present in
`exampleWorld`, does not return an entry: it acquires the table lock with
`RLock` and releases it with `Unlock`, which aborts the execution before
`KeepAlive` is reached. -/
theorem Value_on_present_key_aborts :
    exampleWorld.table.items.lookup 1 = some exampleItem ∧
    CacheTable.Value 1 [] (30 * Millisecond) (30 * Millisecond) (30 * Millisecond) exampleWorld
      = .error Fault.unlockOfUnlocked :=
  ⟨by decide, by rw [Value_faults]; rfl⟩

/-- C3 (code at the failing inputs): on an absent key `Value` returns neither
`ErrKeyNotFound` (no loader, key 6) nor `ErrKeyNotFoundOrLoadable` (loader
without an entry for key 5): the execution aborts at the mismatched `Unlock`. -/
theorem Value_on_absent_key_aborts :
    (exampleWorld.table.items.lookup 6 = none ∧ exampleWorld.table.loadData.isNone = true ∧
      CacheTable.Value 6 [] 0 0 0 exampleWorld = .error Fault.unlockOfUnlocked) ∧
    (exampleLoaderWorld.table.items.lookup 5 = none ∧ exampleLoader 5 [] = none ∧
      CacheTable.Value 5 [] 0 0 0 exampleLoaderWorld = .error Fault.unlockOfUnlocked) :=
  ⟨⟨by decide, rfl, by rw [Value_faults]; rfl⟩, ⟨by decide, by decide, by rw [Value_faults]; rfl⟩⟩

/-- C4 (code at the failing input): with a loader that returns an entry
(TTL 0, value 44) for the absent key 4, `Value` returns nothing and installs
nothing: the execution aborts at the mismatched `Unlock`, before the loader is
called. -/
theorem Value_with_loader_aborts :
    exampleLoaderWorld.table.items.lookup 4 = none ∧
    exampleLoader 4 [] = some (NewCacheItem 4 0 (Data.atom 44) 0) ∧
    CacheTable.Value 4 [] 0 0 0 exampleLoaderWorld = .error Fault.unlockOfUnlocked :=
  ⟨by decide, by decide, by rw [Value_faults]; rfl⟩

/-- C5: `Delete` fails with `ErrKeyNotFound` exactly when the key is absent,
and then the table is unchanged; otherwise it returns the entry stored under
the key, after which `Exists` is false, `Count` is one less and every other
key maps to the same entry as before. -/
theorem Delete_fails_iff_absent_else_removes (w : World) (key : Key)
    (hfree : w.table.mutex = RWMutex.free) :
    ((∃ w', CacheTable.Delete key w = .ok (.error CacheError.ErrKeyNotFound, w'))
      ↔ w.table.items.lookup key = none) ∧
    (w.table.items.lookup key = none →
      ∃ w', CacheTable.Delete key w = .ok (.error CacheError.ErrKeyNotFound, w') ∧
        w'.table = w.table) ∧
    (∀ r, w.table.items.lookup key = some r →
      ∃ w', CacheTable.Delete key w = .ok (.ok r, w') ∧
        w'.table = { w.table with items := w.table.items.erase key } ∧
        w'.table.items.lookup key = none ∧
        Prod.fst <$> CacheTable.Exists key w' = .ok false ∧
        (∃ n, Prod.fst <$> CacheTable.Count w = .ok (n + 1) ∧
          Prod.fst <$> CacheTable.Count w' = .ok n) ∧
        (∀ k, k ≠ key → w'.table.items.lookup k = w.table.items.lookup k)) := by
  refine ⟨⟨?_, fun h => ⟨_, Delete_absent key w hfree h⟩⟩,
    fun h => ⟨_, Delete_absent key w hfree h, rfl⟩, ?_⟩
  · rintro ⟨w', hw'⟩
    cases h : w.table.items.lookup key with
    | none => rfl
    | some r =>
      rw [Delete_present key r w hfree h] at hw'
      simp at hw'
  · intro r h
    refine ⟨_, Delete_present key r w hfree h, rfl, ?_, ?_, ?_, ?_⟩
    · simp [AList.lookup_erase]
    · rw [Exists_result _ _ (by simpa using hfree)]
      simp [AList.lookup_erase]
    · refine ⟨(w.table.items.erase key).entries.length, ?_, Count_result _ (by simpa using hfree)⟩
      rw [Count_result w hfree, length_erase_of_lookup _ _ _ h]
    · intro k hk
      simp [AList.lookup_erase_ne hk]

/-- Witness of C5: deleting the present key 1 of `exampleWorld`. -/
theorem Delete_fails_iff_absent_else_removes_witness :
    exampleWorld.table.mutex = RWMutex.free ∧
    ((∃ w', CacheTable.Delete 1 exampleWorld = .ok (.error CacheError.ErrKeyNotFound, w'))
      ↔ exampleWorld.table.items.lookup 1 = none) ∧
    (exampleWorld.table.items.lookup 1 = none →
      ∃ w', CacheTable.Delete 1 exampleWorld = .ok (.error CacheError.ErrKeyNotFound, w') ∧
        w'.table = exampleWorld.table) ∧
    (∀ r, exampleWorld.table.items.lookup 1 = some r →
      ∃ w', CacheTable.Delete 1 exampleWorld = .ok (.ok r, w') ∧
        w'.table = { exampleWorld.table with items := exampleWorld.table.items.erase 1 } ∧
        w'.table.items.lookup 1 = none ∧
        Prod.fst <$> CacheTable.Exists 1 w' = .ok false ∧
        (∃ n, Prod.fst <$> CacheTable.Count exampleWorld = .ok (n + 1) ∧
          Prod.fst <$> CacheTable.Count w' = .ok n) ∧
        (∀ k, k ≠ 1 → w'.table.items.lookup k = exampleWorld.table.items.lookup k)) :=
  ⟨rfl, Delete_fails_iff_absent_else_removes exampleWorld 1 rfl⟩

/-- C10: on a key already present `NotFoundAdded` returns false and changes
nothing: the table (entries, count, scheduling interval, timer, callbacks) is
the same and the only events are the acquisition and the release of the lock,
so no on-add callback runs. It returns true exactly when the key is absent. -/
theorem NotFoundAdded_present_changes_nothing (w : World) (key : Key) (ttl : Duration)
    (data : List Data) (tCreate tSweep : Time) (hfree : w.table.mutex = RWMutex.free) :
    (∀ r, w.table.items.lookup key = some r →
      ∃ w', CacheTable.NotFoundAdded key ttl data tCreate tSweep w = .ok (false, w') ∧
        w'.table = w.table ∧
        w'.trace = w.trace ++ [Event.Lock, Event.Unlock] ∧
        w'.table.items.lookup key = some r ∧
        Prod.fst <$> CacheTable.Count w' = Prod.fst <$> CacheTable.Count w ∧
        w'.table.cleanupInterval = w.table.cleanupInterval) ∧
    (Prod.fst <$> CacheTable.NotFoundAdded key ttl data tCreate tSweep w = .ok true
      ↔ w.table.items.lookup key = none) ∧
    (Prod.fst <$> CacheTable.NotFoundAdded key ttl data tCreate tSweep w = .ok false
      ↔ ∃ r, w.table.items.lookup key = some r) := by
  refine ⟨fun r h => ⟨_, NotFoundAdded_present key ttl data tCreate tSweep r w hfree h, rfl, rfl,
    h, ?_, rfl⟩, ?_, ?_⟩
  · rw [Count_result _ (by simpa using hfree), Count_result w hfree]
  · cases h : w.table.items.lookup key with
    | none =>
      rw [NotFoundAdded_absent key ttl data tCreate tSweep w hfree h]
      simp [Functor.map, Except.map]
    | some r =>
      rw [NotFoundAdded_present key ttl data tCreate tSweep r w hfree h]
      simp [Functor.map, Except.map]
  · cases h : w.table.items.lookup key with
    | none =>
      rw [NotFoundAdded_absent key ttl data tCreate tSweep w hfree h]
      simp [Functor.map, Except.map]
    | some r =>
      rw [NotFoundAdded_present key ttl data tCreate tSweep r w hfree h]
      simp [Functor.map, Except.map]

/-- Witness of C10: `NotFoundAdded` on the present key 1 of `exampleWorld`. -/
theorem NotFoundAdded_present_changes_nothing_witness :
    exampleWorld.table.mutex = RWMutex.free ∧
    exampleWorld.table.items.lookup 1 = some exampleItem ∧
    ((∀ r, exampleWorld.table.items.lookup 1 = some r →
      ∃ w', CacheTable.NotFoundAdded 1 (5 * Millisecond) [Data.atom 11] 30 30 exampleWorld
          = .ok (false, w') ∧
        w'.table = exampleWorld.table ∧
        w'.trace = exampleWorld.trace ++ [Event.Lock, Event.Unlock] ∧
        w'.table.items.lookup 1 = some r ∧
        Prod.fst <$> CacheTable.Count w' = Prod.fst <$> CacheTable.Count exampleWorld ∧
        w'.table.cleanupInterval = exampleWorld.table.cleanupInterval) ∧
    (Prod.fst <$> CacheTable.NotFoundAdded 1 (5 * Millisecond) [Data.atom 11] 30 30 exampleWorld
        = .ok true
      ↔ exampleWorld.table.items.lookup 1 = none) ∧
    (Prod.fst <$> CacheTable.NotFoundAdded 1 (5 * Millisecond) [Data.atom 11] 30 30 exampleWorld
        = .ok false
      ↔ ∃ r, exampleWorld.table.items.lookup 1 = some r)) :=
  ⟨rfl, by decide, NotFoundAdded_present_changes_nothing exampleWorld 1 (5 * Millisecond)
    [Data.atom 11] 30 30 rfl⟩

/-- C7: one pass of the sweep (lock free, callbacks not touching the table)
removes exactly the entries with `ttl != 0` and `now - lastAccessAt >= ttl`: a
key is present afterwards iff it was present with an entry of TTL 0 or with
`now - lastAccessAt < ttl`, and a surviving key maps to the same entry. In
particular an entry added with TTL 50ms and not touched is absent after a
sweep 60ms later, without any `Delete`. -/
theorem sweep_removes_exactly_the_expired (w : World) (now : Time)
    (hfree : w.table.mutex = RWMutex.free) :
    (∃ w', CacheTable.expirationCheck now w = .ok w' ∧
      (∀ k, (∃ item, w'.table.items.lookup k = some item) ↔
        ∃ item, w.table.items.lookup k = some item ∧
          (item.lifeSpan = 0 ∨ Time.Sub now item.accessdOn < item.lifeSpan)) ∧
      (∀ k item, w'.table.items.lookup k = some item → w.table.items.lookup k = some item) ∧
      (∀ k item, w.table.items.lookup k = some item → item.lifeSpan ≠ 0 →
        Time.Sub now item.accessdOn ≥ item.lifeSpan → w'.table.items.lookup k = none)) ∧
    (∀ (key : Key) (v : Data) (t : Time),
      ∃ item w₁ w₂, CacheTable.Add key (50 * Millisecond) v t t w = .ok (item, w₁) ∧
        w₁.table.items.lookup key = some item ∧
        CacheTable.expirationCheck (t + 60 * Millisecond) w₁ = .ok w₂ ∧
        w₂.table.items.lookup key = none ∧
        Prod.fst <$> CacheTable.Exists key w₂ = .ok false) := by
  constructor
  · refine ⟨_, expirationCheck_spec now w hfree, ?_, ?_, ?_⟩
    · intro k
      simp only [sweepTable, lookup_sweep]
      cases h : w.table.items.lookup k with
      | none => simp [Option.filter]
      | some item =>
        by_cases he : expired now item
        · have : ¬ (item.lifeSpan = 0 ∨ Time.Sub now item.accessdOn < item.lifeSpan) := by
            rintro (h0 | hlt)
            · exact he.1 h0
            · exact absurd he.2 (not_le.mpr hlt)
          simp [Option.filter, he, this]
        · have : item.lifeSpan = 0 ∨ Time.Sub now item.accessdOn < item.lifeSpan := by
            by_cases h0 : item.lifeSpan = 0
            · exact Or.inl h0
            · exact Or.inr (lt_of_not_ge fun hge => he ⟨h0, hge⟩)
          simp [Option.filter, he, this]
    · intro k item
      simp only [sweepTable, lookup_sweep]
      cases h : w.table.items.lookup k with
      | none => simp [Option.filter]
      | some item' =>
        by_cases he : expired now item' <;> simp [Option.filter, he]
    · intro k item h h0 hge
      simp only [sweepTable, lookup_sweep, h]
      have he : expired now item := ⟨h0, hge⟩
      simp [Option.filter, he]
  · intro key v t
    obtain ⟨item, w₁, hAdd, hitem, hlook, hfree₁⟩ :=
      Add_stores_fresh_entry w key (50 * Millisecond) v t hfree
    refine ⟨item, w₁, _, hAdd, hlook, expirationCheck_spec _ w₁ hfree₁, ?_, ?_⟩
    · have he : expired (t + 60 * Millisecond) item := by
        subst hitem
        simp [expired, Time.Sub, clampInt64, minInt64, maxInt64, Millisecond]
      simp [sweepTable, lookup_sweep, hlook, Option.filter, he]
    · have he : expired (t + 60 * Millisecond) item := by
        subst hitem
        simp [expired, Time.Sub, clampInt64, minInt64, maxInt64, Millisecond]
      rw [Exists_result _ _ (by simpa [sweepTable] using hfree₁)]
      simp [sweepTable, lookup_sweep, hlook, Option.filter, he]

/-- Witness of C7: a sweep of `exampleWorld` at 130ms, when its entry under key
1 (TTL 100ms, last read at 20ms) is due and the one under key 2 never is. -/
theorem sweep_removes_exactly_the_expired_witness :
    exampleWorld.table.mutex = RWMutex.free ∧
    (∃ w', CacheTable.expirationCheck (130 * Millisecond) exampleWorld = .ok w' ∧
      (∀ k, (∃ item, w'.table.items.lookup k = some item) ↔
        ∃ item, exampleWorld.table.items.lookup k = some item ∧
          (item.lifeSpan = 0 ∨ Time.Sub (130 * Millisecond) item.accessdOn < item.lifeSpan)) ∧
      (∀ k item, w'.table.items.lookup k = some item →
        exampleWorld.table.items.lookup k = some item) ∧
      (∀ k item, exampleWorld.table.items.lookup k = some item → item.lifeSpan ≠ 0 →
        Time.Sub (130 * Millisecond) item.accessdOn ≥ item.lifeSpan →
        w'.table.items.lookup k = none)) ∧
    (∀ (key : Key) (v : Data) (t : Time),
      ∃ item w₁ w₂, CacheTable.Add key (50 * Millisecond) v t t exampleWorld = .ok (item, w₁) ∧
        w₁.table.items.lookup key = some item ∧
        CacheTable.expirationCheck (t + 60 * Millisecond) w₁ = .ok w₂ ∧
        w₂.table.items.lookup key = none ∧
        Prod.fst <$> CacheTable.Exists key w₂ = .ok false) :=
  ⟨rfl, sweep_removes_exactly_the_expired exampleWorld (130 * Millisecond) rfl⟩

theorem sweepEvents_eq_removals (now : Time) (atd : List CallbackId)
    (es : List (Sigma fun _ : Key => CacheItem)) :
    ∀ m : Items, sweepEvents now atd es m =
      (sweepRemovals now es m).flatMap (fun x => deleteEvents atd x.1 x.2.1 x.2.2) := by
  induction es with
  | nil => intro m; simp [sweepEvents, sweepRemovals]
  | cons e rest ih =>
    intro m
    obtain ⟨key, item⟩ := e
    by_cases he : expired now item
    · cases hl : m.lookup key with
      | none => simp [sweepEvents, sweepRemovals, he, hl, ih]
      | some r => simp [sweepEvents, sweepRemovals, he, hl, ih]
    · simp [sweepEvents, sweepRemovals, he, ih]

theorem sweepRemovals_view (now : Time) (es : List (Sigma fun _ : Key => CacheItem)) :
    ∀ m : Items, ∀ x ∈ sweepRemovals now es m, x.2.2.lookup x.1 = some x.2.1 := by
  induction es with
  | nil => intro m x hx; simp [sweepRemovals] at hx
  | cons e rest ih =>
    intro m x hx
    obtain ⟨key, item⟩ := e
    by_cases he : expired now item
    · cases hl : m.lookup key with
      | none =>
        simp only [sweepRemovals, he, hl, if_true] at hx
        exact ih m x hx
      | some r =>
        simp only [sweepRemovals, he, hl, if_true, List.mem_cons] at hx
        rcases hx with rfl | hx
        · exact hl
        · exact ih _ x hx
    · simp only [sweepRemovals, he, if_false] at hx
      exact ih m x hx

theorem sweepRemovals_entries (now : Time) (es : List (Sigma fun _ : Key => CacheItem)) :
    ∀ m : Items, es.NodupKeys → (∀ e ∈ es, m.lookup e.1 = some e.2) →
      (sweepRemovals now es m).map (fun x => (⟨x.1, x.2.1⟩ : Sigma fun _ : Key => CacheItem))
        = es.filter (fun e => expired now e.2) := by
  induction es with
  | nil => intro m _ _; simp [sweepRemovals]
  | cons e rest ih =>
    intro m hnd hall
    obtain ⟨key, item⟩ := e
    rw [List.nodupKeys_cons] at hnd
    have hk : m.lookup key = some item := hall ⟨key, item⟩ (List.mem_cons_self _ _)
    have hrest : ∀ e ∈ rest, m.lookup e.1 = some e.2 :=
      fun e he => hall e (List.mem_cons_of_mem _ he)
    by_cases he : expired now item
    · have hrest' : ∀ e ∈ rest, (m.erase key).lookup e.1 = some e.2 := by
        intro e hmem
        obtain ⟨k₂, i₂⟩ := e
        have hne : k₂ ≠ key := by
          intro hc
          apply hnd.1
          rw [← hc]
          exact List.mem_keys.mpr ⟨i₂, hmem⟩
        rw [AList.lookup_erase_ne hne]
        exact hrest _ hmem
      simp [sweepRemovals, he, hk, List.filter_cons, ih _ hnd.2 hrest']
    · simp [sweepRemovals, he, List.filter_cons, ih _ hnd.2 hrest]

theorem lookup_of_mem_entries (m : Items) :
    ∀ e ∈ m.entries, m.lookup e.1 = some e.2 := by
  intro e he
  obtain ⟨k, item⟩ := e
  have : item ∈ m.lookup k := AList.mem_lookup_iff.mpr he
  simpa using this

/-- C6: removing a present key, by `Delete` or by the sweep, calls every
about-to-delete callback of the table, in registration order, once, with the
entry, then every expire callback of the entry, in registration order, once,
with the key; the table map seen by each of these calls still holds the key,
which is removed only afterwards. `Delete` of an absent key calls nothing. The
sweep does one such removal for each expired entry, in iteration order. -/
theorem removal_runs_callbacks_before_map_removal (w : World) (key : Key)
    (hfree : w.table.mutex = RWMutex.free) :
    (∀ r, w.table.items.lookup key = some r →
      ∃ w', CacheTable.Delete key w = .ok (.ok r, w') ∧
        w'.trace = w.trace ++ [Event.Lock, Event.Unlock]
          ++ w.table.aboutToDeleteItem.map (fun cb => Event.aboutToDeleteItem cb r w.table.items)
          ++ r.aboutToExpire.map (fun cb => Event.aboutToExpire cb key w.table.items)
          ++ [Event.Lock, Event.Unlock] ∧
        w'.table.items.lookup key = none) ∧
    (w.table.items.lookup key = none →
      ∃ w', CacheTable.Delete key w = .ok (.error CacheError.ErrKeyNotFound, w') ∧
        w'.trace = w.trace ++ [Event.Lock, Event.Unlock]) ∧
    (∀ now : Time, ∃ w', CacheTable.expirationCheck now w = .ok w' ∧
      w'.trace = w.trace ++ [Event.Lock]
        ++ (sweepRemovals now w.table.items.entries w.table.items).flatMap
            (fun x => [Event.Unlock]
              ++ w.table.aboutToDeleteItem.map (fun cb => Event.aboutToDeleteItem cb x.2.1 x.2.2)
              ++ x.2.1.aboutToExpire.map (fun cb => Event.aboutToExpire cb x.1 x.2.2)
              ++ [Event.Lock])
        ++ [Event.Unlock] ∧
      (sweepRemovals now w.table.items.entries w.table.items).map
          (fun x => (⟨x.1, x.2.1⟩ : Sigma fun _ : Key => CacheItem))
        = w.table.items.entries.filter
            (fun e => e.2.lifeSpan ≠ 0 ∧ Time.Sub now e.2.accessdOn ≥ e.2.lifeSpan) ∧
      (∀ x ∈ sweepRemovals now w.table.items.entries w.table.items,
        x.2.2.lookup x.1 = some x.2.1) ∧
      (∀ x ∈ sweepRemovals now w.table.items.entries w.table.items,
        w'.table.items.lookup x.1 = none)) := by
  refine ⟨fun r h => ⟨_, Delete_present key r w hfree h, ?_, ?_⟩,
    fun h => ⟨_, Delete_absent key w hfree h, rfl⟩, fun now => ?_⟩
  · simp [deleteEvents]
  · simp [AList.lookup_erase]
  · refine ⟨_, expirationCheck_spec now w hfree, ?_, ?_, ?_, ?_⟩
    · rw [sweepEvents_eq_removals]
      rfl
    · exact sweepRemovals_entries now _ _ w.table.items.nodupKeys (lookup_of_mem_entries _)
    · exact sweepRemovals_view now _ _
    · intro x hx
      have hmap := sweepRemovals_entries now _ _ w.table.items.nodupKeys
        (lookup_of_mem_entries w.table.items)
      have hmem : (⟨x.1, x.2.1⟩ : Sigma fun _ : Key => CacheItem) ∈
          w.table.items.entries.filter (fun e => expired now e.2) := by
        rw [← hmap]
        exact List.mem_map.mpr ⟨x, hx, rfl⟩
      rw [List.mem_filter] at hmem
      simp only [sweepTable]
      exact lookup_eraseExpired_of_mem now x.1 _ _ ⟨_, hmem.1, rfl, by simpa using hmem.2⟩

/-- Witness of C6: `Delete` and the sweep on `exampleWorld`, whose table has
two about-to-delete callbacks and whose entry under key 1 has two expire
callbacks. -/
theorem removal_runs_callbacks_before_map_removal_witness :
    exampleWorld.table.mutex = RWMutex.free ∧
    (∃ w', CacheTable.Delete 1 exampleWorld = .ok (.ok exampleItem, w') ∧
      w'.trace = [Event.Lock, Event.Unlock,
        Event.aboutToDeleteItem 3 exampleItem exampleTable.items,
        Event.aboutToDeleteItem 4 exampleItem exampleTable.items,
        Event.aboutToExpire 7 1 exampleTable.items,
        Event.aboutToExpire 8 1 exampleTable.items,
        Event.Lock, Event.Unlock] ∧
      w'.table.items.lookup 1 = none) ∧
    exampleTable.items.lookup 1 = some exampleItem :=
  ⟨rfl, (removal_runs_callbacks_before_map_removal exampleWorld 1 rfl).1 exampleItem (by decide),
    by decide⟩

theorem addTable_mutex (item : CacheItem) (tSweep : Time) (t : CacheTable) :
    (addTable item tSweep t).mutex = t.mutex := by
  simp only [addTable]
  split <;> simp [sweepTable]

theorem addTable_lookup_forever (item : CacheItem) (tSweep : Time) (t : CacheTable) (k : Key)
    (e : CacheItem) (hne : item.key ≠ k) (h : t.items.lookup k = some e)
    (h0 : e.lifeSpan = 0) :
    (addTable item tSweep t).items.lookup k = some e := by
  have hins : (t.items.insert item.key item).lookup k = some e := by
    rw [AList.lookup_insert_ne (Ne.symm hne)]; exact h
  have hne : ¬ expired tSweep e := fun hx => hx.1 h0
  simp only [addTable]
  split
  · simp only [sweepTable]
    rw [lookup_sweep, hins]
    simp [Option.filter, hne]
  · simpa using hins

/-- The invariant kept by a call that spares the key `k` and returns: the lock
is free and the key holds an entry with the value `v` and TTL 0. -/
theorem forever_step (k : Key) (v : Data) (s : Step) (w w' : World) (hs : s.spares k)
    (hfree : w.table.mutex = RWMutex.free)
    (hk : ∃ e, w.table.items.lookup k = some e ∧ e.data = v ∧ e.lifeSpan = 0)
    (hrun : s.run w = .ok w') :
    w'.table.mutex = RWMutex.free ∧
      ∃ e, w'.table.items.lookup k = some e ∧ e.data = v ∧ e.lifeSpan = 0 := by
  obtain ⟨e, he, hv, h0⟩ := hk
  have hnx : ∀ now, ¬ expired now e := fun _ hx => hx.1 h0
  cases s with
  | sweep now =>
    simp only [Step.run, expirationCheck_spec now w hfree, Except.ok.injEq] at hrun
    subst hrun
    exact ⟨by simpa [sweepTable] using hfree,
      e, by simp [sweepTable, lookup_sweep, he, Option.filter, hnx now], hv, h0⟩
  | value key args tAccess tCreate tSweep =>
    simp [Step.run, Value_faults, Functor.map, Except.map] at hrun
  | add key lifeSpan data tCreate tSweep =>
    simp only [Step.run, Add_spec key lifeSpan data tCreate tSweep w hfree, Functor.map,
      Except.map, Except.ok.injEq] at hrun
    subst hrun
    exact ⟨by simpa [addTable_mutex] using hfree,
      e, addTable_lookup_forever _ _ _ _ _ hs he h0, hv, h0⟩
  | notFoundAdded key lifeSpan data tCreate tSweep =>
    cases hl : w.table.items.lookup key with
    | none =>
      simp only [Step.run, NotFoundAdded_absent key lifeSpan data tCreate tSweep w hfree hl,
        Functor.map, Except.map, Except.ok.injEq] at hrun
      subst hrun
      exact ⟨by simpa [addTable_mutex] using hfree,
        e, addTable_lookup_forever _ _ _ _ _ hs he h0, hv, h0⟩
    | some r =>
      simp only [Step.run, NotFoundAdded_present key lifeSpan data tCreate tSweep r w hfree hl,
        Functor.map, Except.map, Except.ok.injEq] at hrun
      subst hrun
      exact ⟨hfree, e, he, hv, h0⟩
  | delete key =>
    cases hl : w.table.items.lookup key with
    | none =>
      simp only [Step.run, Delete_absent key w hfree hl, Functor.map, Except.map,
        Except.ok.injEq] at hrun
      subst hrun
      exact ⟨hfree, e, he, hv, h0⟩
    | some r =>
      simp only [Step.run, Delete_present key r w hfree hl, Functor.map, Except.map,
        Except.ok.injEq] at hrun
      subst hrun
      have hne : k ≠ key := fun hc => hs hc.symm
      exact ⟨hfree, e, by simpa [AList.lookup_erase_ne hne] using he, hv, h0⟩
  | flush => exact absurd hs (by simp [Step.spares])

theorem step_returns (k : Key) (s : Step) (w : World) (hs : s.spares k)
    (hfree : w.table.mutex = RWMutex.free) (hv : s.isValue = false) :
    ∃ w', s.run w = .ok w' := by
  cases s with
  | sweep now => exact ⟨_, expirationCheck_spec now w hfree⟩
  | value key args tAccess tCreate tSweep => simp [Step.isValue] at hv
  | add key lifeSpan data tCreate tSweep =>
    exact ⟨_, by simp only [Step.run, Add_spec key lifeSpan data tCreate tSweep w hfree]; rfl⟩
  | notFoundAdded key lifeSpan data tCreate tSweep =>
    cases hl : w.table.items.lookup key with
    | none =>
      exact ⟨_, by
        simp only [Step.run, NotFoundAdded_absent key lifeSpan data tCreate tSweep w hfree hl]
        rfl⟩
    | some r =>
      exact ⟨_, by
        simp only [Step.run, NotFoundAdded_present key lifeSpan data tCreate tSweep r w hfree hl]
        rfl⟩
  | delete key =>
    cases hl : w.table.items.lookup key with
    | none => exact ⟨_, by simp only [Step.run, Delete_absent key w hfree hl]; rfl⟩
    | some r => exact ⟨_, by simp only [Step.run, Delete_present key r w hfree hl]; rfl⟩
  | flush => exact absurd hs (by simp [Step.spares])

theorem forever_steps (k : Key) (v : Data) (steps : List Step) :
    ∀ w : World, (∀ s ∈ steps, s.spares k) → w.table.mutex = RWMutex.free →
      (∃ e, w.table.items.lookup k = some e ∧ e.data = v ∧ e.lifeSpan = 0) →
      (∀ w', runSteps steps w = .ok w' →
        w'.table.mutex = RWMutex.free ∧
          ∃ e, w'.table.items.lookup k = some e ∧ e.data = v ∧ e.lifeSpan = 0) ∧
      ((∀ s ∈ steps, s.isValue = false) → ∃ w', runSteps steps w = .ok w') := by
  induction steps with
  | nil =>
    intro w _ hfree hk
    exact ⟨fun w' h => by
      simp only [runSteps, pure, Except.pure, Except.ok.injEq] at h
      subst h
      exact ⟨hfree, hk⟩, fun _ => ⟨w, rfl⟩⟩
  | cons s rest ih =>
    intro w hs hfree hk
    have hs0 : s.spares k := hs s (List.mem_cons_self _ _)
    have hsr : ∀ s ∈ rest, s.spares k := fun s h => hs s (List.mem_cons_of_mem _ h)
    constructor
    · intro w' hrun
      cases h1 : s.run w with
      | error f => simp [runSteps, h1, bind, Except.bind] at hrun
      | ok w₁ =>
        simp only [runSteps, h1, bind, Except.bind] at hrun
        obtain ⟨hf1, hk1⟩ := forever_step k v s w w₁ hs0 hfree hk h1
        exact (ih w₁ hsr hf1 hk1).1 w' hrun
    · intro hnv
      obtain ⟨w₁, h1⟩ := step_returns k s w hs0 hfree (hnv s (List.mem_cons_self _ _))
      obtain ⟨hf1, hk1⟩ := forever_step k v s w w₁ hs0 hfree hk h1
      obtain ⟨w', hw'⟩ := (ih w₁ hsr hf1 hk1).2 (fun s h => hnv s (List.mem_cons_of_mem _ h))
      exact ⟨w', by simp only [runSteps, h1, bind, Except.bind]; exact hw'⟩

/-- The keep-alive mechanism itself: the sweep tests the time of the last
`KeepAlive`, not the creation time. An entry with positive TTL whose last
`KeepAlive` was at `t` survives a sweep at `t'` when `t' - t < ttl` and is
removed by it when `t' - t >= ttl`. -/
theorem sweep_after_KeepAlive (w : World) (key : Key) (e : CacheItem) (t t' : Time)
    (hfree : w.table.mutex = RWMutex.free)
    (h : w.table.items.lookup key = some (e.KeepAlive t)) (httl : e.lifeSpan > 0) :
    ∃ w', CacheTable.expirationCheck t' w = .ok w' ∧
      (Time.Sub t' t < e.lifeSpan → w'.table.items.lookup key = some (e.KeepAlive t)) ∧
      (Time.Sub t' t ≥ e.lifeSpan → w'.table.items.lookup key = none) := by
  refine ⟨_, expirationCheck_spec t' w hfree, ?_, ?_⟩
  · intro hlt
    have hne : ¬ expired t' (e.KeepAlive t) := fun hx => absurd hx.2 (not_le.mpr hlt)
    simp only [sweepTable]
    rw [lookup_sweep, h]
    simp [Option.filter, hne]
  · intro hge
    have hx : expired t' (e.KeepAlive t) := ⟨ne_of_gt httl, hge⟩
    simp only [sweepTable]
    rw [lookup_sweep, h]
    simp [Option.filter, hx]

/-- C8 (code at the failing input): an entry added with TTL 100ms at time 0 is
not kept alive by `Value` at 50ms, because that call aborts at the mismatched
`Unlock` before it reaches `KeepAlive`. -/
theorem Value_keepalive_aborts :
    (CacheTable.Add 3 (100 * Millisecond) (Data.atom 1) 0 0 ⟨Cache "t", []⟩ >>= fun p =>
      CacheTable.Value 3 [] (50 * Millisecond) (50 * Millisecond) (50 * Millisecond) p.2)
      = .error Fault.unlockOfUnlocked := by
  rw [Add_spec _ _ _ _ _ _ rfl]
  simp only [bind, Except.bind, Value_faults]
  rfl

/-- What the calls other than `Value` do to an entry with TTL 0: after
`Add(k, 0, v)`, every sequence of sweeps at any clock readings and of `Add`,
`NotFoundAdded` and `Delete` calls on other keys runs to its end, and the
state it leaves holds an entry with value `v` under `k`, for which `Exists(k)`
is true. -/
theorem ttl_zero_entry_survives_without_Value (w : World) (k : Key) (v : Data)
    (t tSweep : Time) (steps : List Step) (hfree : w.table.mutex = RWMutex.free)
    (hsp : ∀ s ∈ steps, s.spares k) (hnv : ∀ s ∈ steps, s.isValue = false) :
    ∃ item w₁ w', CacheTable.Add k 0 v t tSweep w = .ok (item, w₁) ∧
      runSteps steps w₁ = .ok w' ∧
      (∃ e, w'.table.items.lookup k = some e ∧ e.data = v ∧ e.lifeSpan = 0) ∧
      Prod.fst <$> CacheTable.Exists k w' = .ok true := by
  have hf1 : (addTable (NewCacheItem k 0 v t) tSweep w.table).mutex = RWMutex.free := by
    rw [addTable_mutex]; exact hfree
  have hk1 : ∃ e, (addTable (NewCacheItem k 0 v t) tSweep w.table).items.lookup k = some e ∧
      e.data = v ∧ e.lifeSpan = 0 := by
    refine ⟨NewCacheItem k 0 v t, ?_, rfl, rfl⟩
    simp [addTable, NewCacheItem]
  obtain ⟨hA, hB⟩ := forever_steps k v steps
    { table := addTable (NewCacheItem k 0 v t) tSweep w.table
      trace := w.trace ++ Event.Lock :: addEvents (NewCacheItem k 0 v t) tSweep w.table }
    hsp hf1 hk1
  obtain ⟨w', hrun⟩ := hB hnv
  obtain ⟨hf, e, he, hv, h0⟩ := hA w' hrun
  refine ⟨_, _, w', Add_spec k 0 v t tSweep w hfree, hrun, ⟨e, he, hv, h0⟩, ?_⟩
  rw [Exists_result k w' hf, he]
  rfl

/-- An instance of `ttl_zero_entry_survives_without_Value`: key 9 is added with
TTL 0 to `exampleWorld`, then `exampleSteps` run to their end, among them a
sweep one hour later. -/
theorem ttl_zero_entry_survives_exampleSteps :
    ∃ item w₁ w', CacheTable.Add 9 0 (Data.atom 90) 0 0 exampleWorld = .ok (item, w₁) ∧
      runSteps exampleSteps w₁ = .ok w' ∧
      (∃ e, w'.table.items.lookup 9 = some e ∧ e.data = Data.atom 90 ∧ e.lifeSpan = 0) ∧
      Prod.fst <$> CacheTable.Exists 9 w' = .ok true :=
  ttl_zero_entry_survives_without_Value exampleWorld 9 (Data.atom 90) 0 0 exampleSteps rfl
    (by simp [exampleSteps, Step.spares]) (by simp [exampleSteps, Step.isValue])

/-- A sequence of calls that spare the key `k`, run on a state with the lock
free and an entry with TTL 0 under `k`, aborts with the run-time error of
`Unlock` as soon as it has a `Value` call in it: the calls before the first
`Value` return, the `Value` call does not. -/
theorem runSteps_with_Value_aborts (k : Key) (v : Data) (steps : List Step) :
    ∀ w : World, (∀ s ∈ steps, s.spares k) → w.table.mutex = RWMutex.free →
      (∃ e, w.table.items.lookup k = some e ∧ e.data = v ∧ e.lifeSpan = 0) →
      (∃ s ∈ steps, s.isValue = true) →
      runSteps steps w = .error Fault.unlockOfUnlocked := by
  induction steps with
  | nil =>
    rintro w _ _ _ ⟨s, hs, _⟩
    simp at hs
  | cons s rest ih =>
    intro w hs hfree hk hex
    have hs0 : s.spares k := hs s (List.mem_cons_self _ _)
    have hsr : ∀ s ∈ rest, s.spares k := fun s h => hs s (List.mem_cons_of_mem _ h)
    cases hv : s.isValue with
    | true =>
      cases s with
      | value key args tAccess tCreate tSweep =>
        have hw : ¬ w.table.mutex.writer = true := by rw [hfree]; decide
        simp only [runSteps, Step.run, Value_faults, if_neg hw]
        rfl
      | sweep now => simp [Step.isValue] at hv
      | add key lifeSpan data tCreate tSweep => simp [Step.isValue] at hv
      | notFoundAdded key lifeSpan data tCreate tSweep => simp [Step.isValue] at hv
      | delete key => simp [Step.isValue] at hv
      | flush => simp [Step.isValue] at hv
    | false =>
      obtain ⟨w₁, h1⟩ := step_returns k s w hs0 hfree hv
      obtain ⟨hf1, hk1⟩ := forever_step k v s w w₁ hs0 hfree hk h1
      have hex' : ∃ s' ∈ rest, s'.isValue = true := by
        obtain ⟨s', hmem, hs'⟩ := hex
        rcases List.mem_cons.mp hmem with rfl | hmem
        · rw [hv] at hs'; exact absurd hs' (by decide)
        · exact ⟨s', hmem, hs'⟩
      simp only [runSteps, h1, bind, Except.bind]
      exact ih w₁ hsr hf1 hk1 hex'

/-- C9 (code at the failing input): key 9 is added with TTL 0 to
`exampleWorld`; then a sweep one second later, a `Value` call on key 9 and a
sweep one hour later are run, a sequence the claim allows, and `Exists(9)` is
asked. The execution aborts in the `Value` call with the run-time error of
`Unlock`, so `Exists(9)` is never answered. The same sequence without the
`Value` call returns and answers true. -/
theorem Value_call_aborts_before_Exists_of_ttl_zero_entry :
    (∀ s ∈ [Step.sweep (1000 * Millisecond),
        Step.value 9 [] (2000 * Millisecond) (2000 * Millisecond) (2000 * Millisecond),
        Step.sweep (3600000 * Millisecond)], s.spares 9) ∧
    (CacheTable.Add 9 0 (Data.atom 90) 0 0 exampleWorld >>= fun p =>
      runSteps [Step.sweep (1000 * Millisecond),
        Step.value 9 [] (2000 * Millisecond) (2000 * Millisecond) (2000 * Millisecond),
        Step.sweep (3600000 * Millisecond)] p.2 >>= fun w' =>
      Prod.fst <$> CacheTable.Exists 9 w') = .error Fault.unlockOfUnlocked ∧
    (CacheTable.Add 9 0 (Data.atom 90) 0 0 exampleWorld >>= fun p =>
      runSteps [Step.sweep (1000 * Millisecond),
        Step.sweep (3600000 * Millisecond)] p.2 >>= fun w' =>
      Prod.fst <$> CacheTable.Exists 9 w') = .ok true :=
  ⟨by simp [Step.spares], rfl, rfl⟩

theorem dlookup_kreplace_self (k : Key) (b : CacheItem) :
    ∀ l : List (Sigma fun _ : Key => CacheItem), k ∈ l.keys →
      List.dlookup k (List.kreplace k b l) = some b := by
  intro l
  induction l with
  | nil => intro h; simp at h
  | cons e rest ih =>
    intro h
    obtain ⟨k₂, i₂⟩ := e
    by_cases hk : k = k₂
    · subst hk
      simp [List.kreplace, List.lookmap_cons_some]
    · have hmem : k ∈ rest.keys := by
        simp only [List.keys_cons, List.mem_cons] at h
        rcases h with h | h
        · exact absurd h hk
        · exact h
      have := ih hmem
      simp only [List.kreplace] at this ⊢
      rw [List.lookmap_cons_none _ _ (by simp [hk])]
      rw [List.dlookup_cons_ne _ _ (by simpa using hk)]
      exact this

theorem lookup_replace_self (m : Items) (k : Key) (r b : CacheItem)
    (h : m.lookup k = some r) : (m.replace k b).lookup k = some b := by
  have hk : k ∈ m.entries.keys := AList.mem_keys.mp (AList.lookup_isSome.mp (by simp [h]))
  simpa [AList.lookup, AList.replace] using dlookup_kreplace_self k b m.entries hk

theorem wrapInt64_succ (c : Int) (h0 : minInt64 ≤ c) (h1 : c < maxInt64) :
    wrapInt64 (c + 1) = c + 1 := by
  simp only [wrapInt64, minInt64, maxInt64] at *
  omega

/-- The code of `Value` after the release of the lock, on a present key: it
returns the stored entry after `KeepAlive`, which sets the last access to the
clock reading and (below the largest `int64`) raises the access count by one;
the loader is not called and the keys of the table are the same. -/
theorem valueAfterRelease_present (w : World) (key : Key) (args : List Data) (r : CacheItem)
    (loadData : Option (Key → List Data → Option CacheItem)) (tAccess tCreate tSweep : Time)
    (h : w.table.items.lookup key = some r) :
    ∃ w', CacheTable.valueAfterRelease key args (some r) loadData tAccess tCreate tSweep w
        = .ok (.ok (r.KeepAlive tAccess), w') ∧
      w'.table.items.lookup key = some (r.KeepAlive tAccess) ∧
      (r.KeepAlive tAccess).accessdOn = tAccess ∧
      (minInt64 ≤ r.accessdCount → r.accessdCount < maxInt64 →
        (r.KeepAlive tAccess).accessdCount = r.accessdCount + 1) ∧
      w'.table.items.keys = w.table.items.keys ∧
      w'.trace = w.trace := by
  refine ⟨_, rfl, ?_, rfl, fun h0 h1 => wrapInt64_succ _ h0 h1, ?_, rfl⟩
  · simpa [World.setItems] using lookup_replace_self _ _ _ _ h
  · simp [World.setItems, AList.keys_replace]

/-- The code of `Value` after the release of the lock, on an absent key:
`ErrKeyNotFound` without a loader, `ErrKeyNotFoundOrLoadable` when the loader
has no entry, the table being unchanged in both cases. -/
theorem valueAfterRelease_absent (w : World) (key : Key) (args : List Data)
    (tAccess tCreate tSweep : Time) :
    CacheTable.valueAfterRelease key args none none tAccess tCreate tSweep w
      = .ok (.error CacheError.ErrKeyNotFound, w) ∧
    ∀ f : Key → List Data → Option CacheItem, f key args = none →
      CacheTable.valueAfterRelease key args none (some f) tAccess tCreate tSweep w
        = .ok (.error CacheError.ErrKeyNotFoundOrLoadable,
            { table := w.table, trace := w.trace ++ [Event.loadData key args] }) := by
  refine ⟨rfl, fun f hf => ?_⟩
  simp [CacheTable.valueAfterRelease, hf, pure, Except.pure, World.emit]

/-- The code of `Value` after the release of the lock, on an absent key for
which the loader has an entry `e`: it returns `e` and stores under the key a
new entry with the TTL and the value of `e`. -/
theorem valueAfterRelease_loaded (w : World) (key : Key) (args : List Data)
    (f : Key → List Data → Option CacheItem) (e : CacheItem) (tAccess tCreate : Time)
    (hfree : w.table.mutex = RWMutex.free) (hf : f key args = some e) :
    ∃ w', CacheTable.valueAfterRelease key args none (some f) tAccess tCreate tCreate w
        = .ok (.ok e, w') ∧
      w'.table.items.lookup key = some (NewCacheItem key e.lifeSpan e.data tCreate) := by
  obtain ⟨item, w', hAdd, hitem, hlook, _⟩ :=
    Add_stores_fresh_entry (w.emit (Event.loadData key args)) key e.lifeSpan e.data tCreate
      (by simpa [World.emit] using hfree)
  refine ⟨w', ?_, ?_⟩
  · simp [CacheTable.valueAfterRelease, hf, hAdd, bind, Except.bind, pure, Except.pure]
  · rw [hlook, hitem]; rfl

/-! ## Facts about `Flush`, the setters, `Foreach` and `MostAccessed` -/

theorem RUnlock_of_one (w : World) (h : w.table.mutex = ⟨1, false⟩) :
    CacheTable.RUnlock w = .ok ((w.setMutex RWMutex.free).emit Event.RUnlock) := by
  simp [CacheTable.RUnlock, RWMutex.RUnlock, h, RWMutex.free, bind, Except.bind, pure,
    Except.pure]

theorem table_eta_mutex (t : CacheTable) : ({ t with mutex := t.mutex } : CacheTable) = t := by
  cases t; rfl

theorem Flush_spec (w : World) (hm : w.table.mutex = RWMutex.free) :
    CacheTable.Flush w = .ok
      { table := { w.table with
          items := ∅, cleanupInterval := 0,
          cleanupTimer := w.table.cleanupTimer.map Timer.Stop }
        trace := w.trace ++ [Event.Lock, Event.Unlock] } := by
  simp only [CacheTable.Flush, bind, Except.bind, Lock_of_free w hm]
  rw [Unlock_of_held _ (by simp [stopCleanupTimer, World.setItems, World.emit, World.setMutex])]
  simp [stopCleanupTimer, World.setItems, World.emit, World.setMutex, ← hm]

theorem SetDataLoader_spec (f : Key → List Data → Option CacheItem) (w : World)
    (hm : w.table.mutex = RWMutex.free) :
    CacheTable.SetDataLoader f w = .ok
      { table := { w.table with loadData := some f }
        trace := w.trace ++ [Event.Lock, Event.Unlock] } := by
  simp only [CacheTable.SetDataLoader, bind, Except.bind, Lock_of_free w hm]
  rw [Unlock_of_held _ (by simp [World.emit, World.setMutex])]
  simp [World.emit, World.setMutex, ← hm]

theorem RemoveAddedItemCallbacks_spec (w : World) (hm : w.table.mutex = RWMutex.free) :
    CacheTable.RemoveAddedItemCallbacks w = .ok
      { table := { w.table with addedItem := [] }
        trace := w.trace ++ [Event.Lock, Event.Unlock] } := by
  simp only [CacheTable.RemoveAddedItemCallbacks, bind, Except.bind, Lock_of_free w hm]
  rw [Unlock_of_held _ (by simp [World.setAddedItem, World.emit, World.setMutex])]
  simp [World.setAddedItem, World.emit, World.setMutex, ← hm]

theorem AddAddedItemCallback_spec (f : CallbackId) (w : World)
    (hm : w.table.mutex = RWMutex.free) :
    CacheTable.AddAddedItemCallback f w = .ok
      { table := { w.table with addedItem := w.table.addedItem ++ [f] }
        trace := w.trace ++ [Event.Lock, Event.Unlock] } := by
  simp only [CacheTable.AddAddedItemCallback, bind, Except.bind, Lock_of_free w hm]
  rw [Unlock_of_held _ (by simp [World.setAddedItem, World.emit, World.setMutex])]
  simp [World.setAddedItem, World.emit, World.setMutex, ← hm]

theorem SetAddedItemCallback_spec (f : CallbackId) (w : World)
    (hm : w.table.mutex = RWMutex.free) :
    CacheTable.SetAddedItemCallback f w = .ok
      { table := { w.table with addedItem := [f] }
        trace := w.trace
          ++ (if w.table.addedItem.length > 0 then [Event.Lock, Event.Unlock] else [])
          ++ [Event.Lock, Event.Unlock] } := by
  by_cases hl : w.table.addedItem.length > 0
  · simp only [CacheTable.SetAddedItemCallback, hl, if_true, bind, Except.bind,
      RemoveAddedItemCallbacks_spec w hm]
    rw [Lock_of_free _ (by simpa using hm)]
    simp only []
    rw [Unlock_of_held _ (by simp [World.setAddedItem, World.emit, World.setMutex])]
    simp [World.setAddedItem, World.emit, World.setMutex, ← hm]
  · have hnil : w.table.addedItem = [] := by
      cases h : w.table.addedItem with
      | nil => rfl
      | cons a l => simp [h] at hl
    simp only [CacheTable.SetAddedItemCallback, hl, if_false, bind, Except.bind, pure,
      Except.pure, Lock_of_free w hm]
    rw [Unlock_of_held _ (by simp [World.setAddedItem, World.emit, World.setMutex])]
    simp [World.setAddedItem, World.emit, World.setMutex, ← hm, hnil]

theorem RemoveAboutToDeleteItemCallback_spec (w : World) (hm : w.table.mutex = RWMutex.free) :
    CacheTable.RemoveAboutToDeleteItemCallback w = .ok
      { table := { w.table with aboutToDeleteItem := [] }
        trace := w.trace ++ [Event.Lock, Event.Unlock] } := by
  simp only [CacheTable.RemoveAboutToDeleteItemCallback, bind, Except.bind, Lock_of_free w hm]
  rw [Unlock_of_held _ (by simp [World.setAboutToDeleteItem, World.emit, World.setMutex])]
  simp [World.setAboutToDeleteItem, World.emit, World.setMutex, ← hm]

theorem AddAboutToDeleteItemCallback_spec (f : CallbackId) (w : World)
    (hm : w.table.mutex = RWMutex.free) :
    CacheTable.AddAboutToDeleteItemCallback f w = .ok
      { table := { w.table with aboutToDeleteItem := w.table.aboutToDeleteItem ++ [f] }
        trace := w.trace ++ [Event.Lock, Event.Unlock] } := by
  simp only [CacheTable.AddAboutToDeleteItemCallback, bind, Except.bind, Lock_of_free w hm]
  rw [Unlock_of_held _ (by simp [World.setAboutToDeleteItem, World.emit, World.setMutex])]
  simp [World.setAboutToDeleteItem, World.emit, World.setMutex, ← hm]

theorem SetAboutToDeleteItemCallback_spec (f : CallbackId) (w : World)
    (hm : w.table.mutex = RWMutex.free) :
    CacheTable.SetAboutToDeleteItemCallback f w = .ok
      { table := { w.table with aboutToDeleteItem := [f] }
        trace := w.trace
          ++ (if w.table.aboutToDeleteItem.length > 0 then [Event.Lock, Event.Unlock] else [])
          ++ [Event.Lock, Event.Unlock] } := by
  by_cases hl : w.table.aboutToDeleteItem.length > 0
  · simp only [CacheTable.SetAboutToDeleteItemCallback, hl, if_true, bind, Except.bind,
      RemoveAboutToDeleteItemCallback_spec w hm]
    rw [Lock_of_free _ (by simpa using hm)]
    simp only []
    rw [Unlock_of_held _ (by simp [World.setAboutToDeleteItem, World.emit, World.setMutex])]
    simp [World.setAboutToDeleteItem, World.emit, World.setMutex, ← hm]
  · have hnil : w.table.aboutToDeleteItem = [] := by
      cases h : w.table.aboutToDeleteItem with
      | nil => rfl
      | cons a l => simp [h] at hl
    simp only [CacheTable.SetAboutToDeleteItemCallback, hl, if_false, bind, Except.bind, pure,
      Except.pure, Lock_of_free w hm]
    rw [Unlock_of_held _ (by simp [World.setAboutToDeleteItem, World.emit, World.setMutex])]
    simp [World.setAboutToDeleteItem, World.emit, World.setMutex, ← hm, hnil]

theorem Foreach_spec (trans : CallbackId) (w : World) (hm : w.table.mutex = RWMutex.free) :
    CacheTable.Foreach trans w = .ok
      { table := w.table
        trace := w.trace ++ [Event.RLock]
          ++ w.table.items.entries.map (fun e => Event.trans trans e.1 e.2)
          ++ [Event.RUnlock] } := by
  simp only [CacheTable.Foreach, bind, Except.bind, RLock_of_free w hm]
  rw [RUnlock_of_one _ (by simp [World.emits, World.emit, World.setMutex])]
  simp [World.emits, World.emit, World.setMutex, ← hm, table_eta_mutex]

theorem MostAccessed_spec (count : Int) (w : World) (hm : w.table.mutex = RWMutex.free) :
    CacheTable.MostAccessed count w = .ok
      (mostAccessedLoop w.table.items count
        (sortSort (w.table.items.entries.map
          (fun e => (⟨e.1, e.2.accessdCount⟩ : CacheItemPair)))) 0 [],
        { table := w.table, trace := w.trace ++ [Event.RLock, Event.RUnlock] }) := by
  simp only [CacheTable.MostAccessed, bind, Except.bind, RLock_of_free w hm]
  rw [RUnlock_of_one _ (by simp [World.emit, World.setMutex])]
  simp [World.emit, World.setMutex, ← hm, table_eta_mutex, pure, Except.pure]

/-- On an absent key `NotFoundAdded` is `Add` of the slice that holds its
variadic arguments. -/
theorem NotFoundAdded_absent_eq_Add_slice (key : Key) (lifeSpan : Duration) (data : List Data)
    (tCreate tSweep : Time) (w : World) (hm : w.table.mutex = RWMutex.free)
    (h : w.table.items.lookup key = none) :
    CacheTable.NotFoundAdded key lifeSpan data tCreate tSweep w
      = (fun p => (true, p.2)) <$> CacheTable.Add key lifeSpan (Data.slice data) tCreate tSweep w := by
  rw [NotFoundAdded_absent key lifeSpan data tCreate tSweep w hm h,
    Add_spec key lifeSpan (Data.slice data) tCreate tSweep w hm]
  rfl

/-- C11 (code at the failing input): on the empty table `NotFoundAdded(1, 0, 7)`
stores an entry whose `Data()` is the one-element slice holding 7, not 7, so
the table it leaves is not the one `Add(1, 0, 7)` leaves. -/
theorem NotFoundAdded_stores_the_argument_slice :
    ∃ w₁ w₂ e₁ e₂,
      CacheTable.NotFoundAdded 1 0 [Data.atom 7] 0 0 ⟨Cache "t", []⟩ = .ok (true, w₁) ∧
      CacheTable.Add 1 0 (Data.atom 7) 0 0 ⟨Cache "t", []⟩ = .ok (e₂, w₂) ∧
      w₁.table.items.lookup 1 = some e₁ ∧ e₁.Data = Data.slice [Data.atom 7] ∧
      e₁.Data ≠ Data.atom 7 ∧ e₁.LifeSpan = 0 ∧
      w₂.table.items.lookup 1 = some e₂ ∧ e₂.Data = Data.atom 7 ∧
      w₁.table.items ≠ w₂.table.items := by
  refine ⟨_, _, NewCacheItem 1 0 (Data.slice [Data.atom 7]) 0, NewCacheItem 1 0 (Data.atom 7) 0,
    NotFoundAdded_absent 1 0 [Data.atom 7] 0 0 ⟨Cache "t", []⟩ rfl (by decide),
    Add_spec 1 0 (Data.atom 7) 0 0 ⟨Cache "t", []⟩ rfl, by decide, rfl, by decide, rfl,
    by decide, rfl, ?_⟩
  intro h
  have h1 := congrArg (AList.lookup 1) h
  revert h1
  decide

theorem length_insert_of_absent (m : Items) (k : Key) (b : CacheItem)
    (h : m.lookup k = none) : (m.insert k b).entries.length = m.entries.length + 1 := by
  rw [AList.insert_entries_of_neg (AList.lookup_eq_none.mp h)]
  simp

theorem length_insert_of_present (m : Items) (k : Key) (b r : CacheItem)
    (h : m.lookup k = some r) : (m.insert k b).entries.length = m.entries.length := by
  have := length_erase_of_lookup m k r h
  simp only [AList.insert_entries, List.length_cons]
  simpa [AList.erase] using this

theorem addTable_forever (key : Key) (data : Data) (tCreate tSweep : Time) (t : CacheTable) :
    addTable (NewCacheItem key 0 data tCreate) tSweep t
      = { t with items := t.items.insert key (NewCacheItem key 0 data tCreate) } := by
  simp [addTable, NewCacheItem]

theorem addForever_steps (adds : List (Key × Data × Time × Time)) :
    ∀ w : World, w.table.mutex = RWMutex.free → (adds.map Prod.fst).Nodup →
      (∀ a ∈ adds, w.table.items.lookup a.1 = none) →
      ∃ w', runSteps (adds.map addForever) w = .ok w' ∧
        w'.table.mutex = RWMutex.free ∧
        w'.table.items.entries.length = w.table.items.entries.length + adds.length ∧
        (∀ a ∈ adds, ∃ e, w'.table.items.lookup a.1 = some e ∧ e.data = a.2.1) ∧
        (∀ k e, w.table.items.lookup k = some e → w'.table.items.lookup k = some e) := by
  induction adds with
  | nil => intro w hm _ _; exact ⟨w, rfl, hm, by simp, by simp, fun _ _ h => h⟩
  | cons a rest ih =>
    intro w hm hnd habs
    obtain ⟨key, data, tCreate, tSweep⟩ := a
    simp only [List.map_cons, List.nodup_cons] at hnd
    have hk : w.table.items.lookup key = none := habs _ (List.mem_cons_self _ _)
    have hstep : (addForever (key, data, tCreate, tSweep)).run w = .ok
        { table := { w.table with
            items := w.table.items.insert key (NewCacheItem key 0 data tCreate) }
          trace := w.trace ++ Event.Lock
            :: addEvents (NewCacheItem key 0 data tCreate) tSweep w.table } := by
      simp only [addForever, Step.run, Add_spec key 0 data tCreate tSweep w hm, addTable_forever]
      rfl
    have habs' : ∀ a ∈ rest,
        (w.table.items.insert key (NewCacheItem key 0 data tCreate)).lookup a.1 = none := by
      intro a ha
      have hne : a.1 ≠ key := by
        intro hc
        exact hnd.1 (hc ▸ List.mem_map_of_mem Prod.fst ha)
      rw [AList.lookup_insert_ne hne]
      exact habs a (List.mem_cons_of_mem _ ha)
    obtain ⟨w', hrun, hm', hlen, hall, hkeep⟩ := ih
      { table := { w.table with
          items := w.table.items.insert key (NewCacheItem key 0 data tCreate) }
        trace := w.trace ++ Event.Lock
          :: addEvents (NewCacheItem key 0 data tCreate) tSweep w.table }
      (by simpa using hm) hnd.2 habs'
    refine ⟨w', ?_, hm', ?_, ?_, ?_⟩
    · simp only [List.map_cons, runSteps, hstep, bind, Except.bind]
      exact hrun
    · rw [hlen]
      simp only [length_insert_of_absent _ _ _ hk, List.length_cons]
      omega
    · intro a ha
      rcases List.mem_cons.mp ha with rfl | ha
      · exact ⟨NewCacheItem key 0 data tCreate, hkeep key _ (AList.lookup_insert _), rfl⟩
      · exact hall a ha
    · intro k e he
      apply hkeep
      have hne : k ≠ key := by
        intro hc
        rw [hc, hk] at he
        cases he
      simpa [AList.lookup_insert_ne hne] using he

/-- C17: adds to distinct keys never lose an entry. From a table without
entries, the `Add` calls with TTL 0 on pairwise distinct keys, run one after the
other in any order, all return and leave `Count()` equal to their number with
`Exists` true for each key. In general `Add(k, 0, v)` raises `Count()` by one
when `k` was absent, leaves it unchanged when `k` was present, and leaves the
entry of every other key untouched. -/
theorem adds_to_distinct_keys_lose_no_entry (w : World) (hfree : w.table.mutex = RWMutex.free) :
    (w.table.items = ∅ →
      ∀ adds order : List (Key × Data × Time × Time), (adds.map Prod.fst).Nodup →
        order.Perm adds →
        ∃ w', runSteps (order.map addForever) w = .ok w' ∧
          Prod.fst <$> CacheTable.Count w' = .ok adds.length ∧
          ∀ a ∈ adds, Prod.fst <$> CacheTable.Exists a.1 w' = .ok true) ∧
    (∀ (k : Key) (v : Data) (tCreate tSweep : Time),
      ∃ item w' n, CacheTable.Add k 0 v tCreate tSweep w = .ok (item, w') ∧
        Prod.fst <$> CacheTable.Count w = .ok n ∧
        (w.table.items.lookup k = none → Prod.fst <$> CacheTable.Count w' = .ok (n + 1)) ∧
        ((∃ r, w.table.items.lookup k = some r) →
          Prod.fst <$> CacheTable.Count w' = .ok n) ∧
        w'.table.items.lookup k = some item ∧
        (∀ k', k' ≠ k → w'.table.items.lookup k' = w.table.items.lookup k')) := by
  constructor
  · intro hempty adds order hnd hperm
    have hnd' : (order.map Prod.fst).Nodup := (hperm.map Prod.fst).nodup_iff.mpr hnd
    obtain ⟨w', hrun, hm', hlen, hall, _⟩ := addForever_steps order w hfree hnd'
      (fun a _ => by rw [hempty]; exact AList.lookup_empty _)
    refine ⟨w', hrun, ?_, ?_⟩
    · rw [Count_result w' hm', hlen, hempty, hperm.length_eq]
      simp
    · intro a ha
      obtain ⟨e, he, _⟩ := hall a (hperm.symm.subset ha)
      rw [Exists_result _ w' hm', he]
      rfl
  · intro k v tCreate tSweep
    refine ⟨_, _, _, Add_spec k 0 v tCreate tSweep w hfree, Count_result w hfree, ?_, ?_, ?_, ?_⟩
    · intro h
      rw [Count_result _ (by simpa [addTable_mutex] using hfree), addTable_forever]
      show Except.ok (w.table.items.insert k _).entries.length = _
      rw [length_insert_of_absent _ _ _ h]
    · rintro ⟨r, h⟩
      rw [Count_result _ (by simpa [addTable_mutex] using hfree), addTable_forever]
      show Except.ok (w.table.items.insert k _).entries.length = _
      rw [length_insert_of_present _ _ _ r h]
    · simp [addTable_forever, AList.lookup_insert]
    · intro k' hk'
      simp [addTable_forever, AList.lookup_insert_ne hk']

/-- Witness of C17: three adds on the keys 11, 12 and 13, run in reverse order
on an empty table. -/
theorem adds_to_distinct_keys_lose_no_entry_witness :
    (⟨Cache "t", []⟩ : World).table.mutex = RWMutex.free ∧
    (⟨Cache "t", []⟩ : World).table.items = ∅ ∧
    (exampleAdds.map Prod.fst).Nodup ∧
    ∃ w', runSteps (exampleAdds.reverse.map addForever) ⟨Cache "t", []⟩ = .ok w' ∧
      Prod.fst <$> CacheTable.Count w' = .ok 3 ∧
      ∀ a ∈ exampleAdds, Prod.fst <$> CacheTable.Exists a.1 w' = .ok true :=
  ⟨rfl, rfl, by decide,
    (adds_to_distinct_keys_lose_no_entry ⟨Cache "t", []⟩ rfl).1 rfl exampleAdds
      exampleAdds.reverse (by decide) (List.reverse_perm _)⟩

/-- C14: after `Flush` the table has no entry (`Count()` is 0 and `Exists` is
false for every key), the scheduling interval is 0 and no timer is pending, no
callback has run (the only events are the acquisition and the release of the
lock), name, loader and callback lists are the same, and a second `Flush`
leaves the same table. -/
theorem Flush_empties_and_is_idempotent (w : World) (hfree : w.table.mutex = RWMutex.free) :
    ∃ w₁ w₂, CacheTable.Flush w = .ok w₁ ∧ CacheTable.Flush w₁ = .ok w₂ ∧
      Prod.fst <$> CacheTable.Count w₁ = .ok 0 ∧
      (∀ k, Prod.fst <$> CacheTable.Exists k w₁ = .ok false) ∧
      w₁.table.cleanupInterval = 0 ∧
      (∀ t, w₁.table.cleanupTimer = some t → t.pending = false) ∧
      w₁.trace = w.trace ++ [Event.Lock, Event.Unlock] ∧
      w₁.table.name = w.table.name ∧
      w₁.table.loadData = w.table.loadData ∧
      w₁.table.addedItem = w.table.addedItem ∧
      w₁.table.aboutToDeleteItem = w.table.aboutToDeleteItem ∧
      w₁.table.mutex = RWMutex.free ∧
      w₂.table = w₁.table := by
  refine ⟨_, _, Flush_spec w hfree, Flush_spec _ (by simpa using hfree), ?_, ?_, rfl, ?_, rfl,
    rfl, rfl, rfl, rfl, hfree, ?_⟩
  · rw [Count_result _ (by simpa using hfree)]
    rfl
  · intro k
    rw [Exists_result _ _ (by simpa using hfree)]
    rfl
  · intro t ht
    cases hc : w.table.cleanupTimer with
    | none => simp [hc] at ht
    | some t₀ =>
      simp only [hc, Option.map_some', Option.some.injEq] at ht
      rw [← ht]
      rfl
  · cases hc : w.table.cleanupTimer <;> simp [hc, Timer.Stop]

/-- Witness of C14: `Flush` of `exampleWorld`, which holds two entries and a
pending timer. -/
theorem Flush_empties_and_is_idempotent_witness :
    exampleWorld.table.mutex = RWMutex.free ∧
    ∃ w₁ w₂, CacheTable.Flush exampleWorld = .ok w₁ ∧ CacheTable.Flush w₁ = .ok w₂ ∧
      Prod.fst <$> CacheTable.Count w₁ = .ok 0 ∧
      (∀ k, Prod.fst <$> CacheTable.Exists k w₁ = .ok false) ∧
      w₁.table.cleanupInterval = 0 ∧
      (∀ t, w₁.table.cleanupTimer = some t → t.pending = false) ∧
      w₁.trace = exampleWorld.trace ++ [Event.Lock, Event.Unlock] ∧
      w₁.table.name = exampleWorld.table.name ∧
      w₁.table.loadData = exampleWorld.table.loadData ∧
      w₁.table.addedItem = exampleWorld.table.addedItem ∧
      w₁.table.aboutToDeleteItem = exampleWorld.table.aboutToDeleteItem ∧
      w₁.table.mutex = RWMutex.free ∧
      w₂.table = w₁.table :=
  ⟨rfl, Flush_empties_and_is_idempotent exampleWorld rfl⟩

/-- C16: on each of the three callback lists, whatever its content, `Set`
leaves exactly the new callback, `Add` appends it, `Remove` leaves the list
empty, and `Set` leaves what `Remove` followed by `Add` leaves; an operation on
the list of an entry changes no other field of the entry, and an operation on
a list of the table changes nothing else in the table. -/
theorem callback_list_operations (w : World) (item : CacheItem) (f : CallbackId)
    (hfree : w.table.mutex = RWMutex.free) :
    (item.SetAboutToExpireCallback f = { item with aboutToExpire := [f] } ∧
      item.AddAboutToExpireCallback f
        = { item with aboutToExpire := item.aboutToExpire ++ [f] } ∧
      item.RemoveAboutToExpireCallback = { item with aboutToExpire := [] } ∧
      item.SetAboutToExpireCallback f
        = item.RemoveAboutToExpireCallback.AddAboutToExpireCallback f) ∧
    (∃ ws wa wr wra, CacheTable.SetAddedItemCallback f w = .ok ws ∧
      CacheTable.AddAddedItemCallback f w = .ok wa ∧
      CacheTable.RemoveAddedItemCallbacks w = .ok wr ∧
      CacheTable.AddAddedItemCallback f wr = .ok wra ∧
      ws.table = { w.table with addedItem := [f] } ∧
      wa.table = { w.table with addedItem := w.table.addedItem ++ [f] } ∧
      wr.table = { w.table with addedItem := [] } ∧
      ws.table = wra.table) ∧
    (∃ ws wa wr wra, CacheTable.SetAboutToDeleteItemCallback f w = .ok ws ∧
      CacheTable.AddAboutToDeleteItemCallback f w = .ok wa ∧
      CacheTable.RemoveAboutToDeleteItemCallback w = .ok wr ∧
      CacheTable.AddAboutToDeleteItemCallback f wr = .ok wra ∧
      ws.table = { w.table with aboutToDeleteItem := [f] } ∧
      wa.table = { w.table with aboutToDeleteItem := w.table.aboutToDeleteItem ++ [f] } ∧
      wr.table = { w.table with aboutToDeleteItem := [] } ∧
      ws.table = wra.table) := by
  refine ⟨⟨?_, rfl, rfl, ?_⟩, ?_, ?_⟩
  · simp only [CacheItem.SetAboutToExpireCallback, CacheItem.RemoveAboutToExpireCallback]
    split
    · rfl
    · rename_i h
      have : item.aboutToExpire = [] := by
        cases hl : item.aboutToExpire with
        | nil => rfl
        | cons a l => simp [hl] at h
      simp [this]
  · simp only [CacheItem.SetAboutToExpireCallback, CacheItem.RemoveAboutToExpireCallback,
      CacheItem.AddAboutToExpireCallback]
    split
    · rfl
    · rename_i h
      have : item.aboutToExpire = [] := by
        cases hl : item.aboutToExpire with
        | nil => rfl
        | cons a l => simp [hl] at h
      simp [this]
  · exact ⟨_, _, _, _, SetAddedItemCallback_spec f w hfree, AddAddedItemCallback_spec f w hfree,
      RemoveAddedItemCallbacks_spec w hfree,
      AddAddedItemCallback_spec f _ (by simpa using hfree), rfl, rfl, rfl, rfl⟩
  · exact ⟨_, _, _, _, SetAboutToDeleteItemCallback_spec f w hfree,
      AddAboutToDeleteItemCallback_spec f w hfree,
      RemoveAboutToDeleteItemCallback_spec w hfree,
      AddAboutToDeleteItemCallback_spec f _ (by simpa using hfree), rfl, rfl, rfl, rfl⟩

/-- Witness of C16: the operations on `exampleItem` (expire callbacks 7, 8) and
on `exampleWorld` (on-add callback 5, about-to-delete callbacks 3, 4). -/
theorem callback_list_operations_witness :
    exampleWorld.table.mutex = RWMutex.free ∧
    (exampleItem.SetAboutToExpireCallback 6).aboutToExpire = [6] ∧
    (exampleItem.AddAboutToExpireCallback 6).aboutToExpire = [7, 8, 6] ∧
    (∃ ws wa wr wra, CacheTable.SetAboutToDeleteItemCallback 6 exampleWorld = .ok ws ∧
      CacheTable.AddAboutToDeleteItemCallback 6 exampleWorld = .ok wa ∧
      CacheTable.RemoveAboutToDeleteItemCallback exampleWorld = .ok wr ∧
      CacheTable.AddAboutToDeleteItemCallback 6 wr = .ok wra ∧
      ws.table = { exampleWorld.table with aboutToDeleteItem := [6] } ∧
      wa.table = { exampleWorld.table with
        aboutToDeleteItem := exampleWorld.table.aboutToDeleteItem ++ [6] } ∧
      wr.table = { exampleWorld.table with aboutToDeleteItem := [] } ∧
      ws.table = wra.table) :=
  ⟨rfl, by decide, by decide,
    (callback_list_operations exampleWorld exampleItem 6 rfl).2.2⟩

theorem wrapInt64_of_range (x : Int) (h0 : minInt64 ≤ x) (h1 : x ≤ maxInt64) :
    wrapInt64 x = x := by
  simp only [wrapInt64, minInt64, maxInt64] at *
  omega

theorem mostAccessedLoop_eq (items : Items) (count : Int) (p : List CacheItemPair) :
    ∀ (c : Int) (r : List CacheItem), 0 ≤ c → count ≤ maxInt64 →
      mostAccessedLoop items count p c r
        = r ++ (p.take (count - c).toNat).filterMap (fun v => items.lookup v.Key) := by
  induction p with
  | nil => intro c r _ _; simp [mostAccessedLoop]
  | cons v rest ih =>
    intro c r h0 hlen
    by_cases hc : c ≥ count
    · have : (count - c).toNat = 0 := by omega
      simp [mostAccessedLoop, hc, this]
    · have hw : wrapInt64 (c + 1) = c + 1 :=
        wrapInt64_of_range _ (by simp only [minInt64]; omega) (by omega)
      have hn : (count - c).toNat = (count - (c + 1)).toNat + 1 := by omega
      simp only [mostAccessedLoop, hc, if_false, hw, hn, List.take_succ_cons,
        List.filterMap_cons]
      cases hl : items.lookup v.Key with
      | none => simp only [ih (c + 1) r (by omega) hlen]
      | some item =>
        simp only [ih (c + 1) (r ++ [item]) (by omega) hlen]
        simp

theorem accessPairs_lookup (items : Items) :
    ∀ v ∈ accessPairs items, ∃ item, items.lookup v.Key = some item ∧
      v.AccessCount = item.accessdCount := by
  intro v hv
  simp only [accessPairs, List.mem_map] at hv
  obtain ⟨e, he, rfl⟩ := hv
  exact ⟨e.2, lookup_of_mem_entries items e he, rfl⟩

theorem accessPairs_keys (items : Items) :
    (accessPairs items).map CacheItemPair.Key = items.keys := by
  simp [accessPairs, AList.keys, List.keys, Function.comp_def]

theorem forall₂_lookup (items : Items) (l : List CacheItemPair)
    (h : ∀ v ∈ l, ∃ item, items.lookup v.Key = some item ∧ v.AccessCount = item.accessdCount) :
    List.Forall₂ (fun k item => items.lookup k = some item) (l.map CacheItemPair.Key)
      (l.filterMap (fun v => items.lookup v.Key)) := by
  induction l with
  | nil => simp
  | cons v rest ih =>
    obtain ⟨item, hitem, _⟩ := h v (List.mem_cons_self _ _)
    simp only [List.map_cons, List.filterMap_cons, hitem]
    exact List.Forall₂.cons hitem (ih fun u hu => h u (List.mem_cons_of_mem _ hu))

/-- What `MostAccessed` returns: the entries under the keys of the first
`count` pairs of the sorted list. -/
theorem MostAccessed_result (count : Int) (w : World) (hm : w.table.mutex = RWMutex.free)
    (hlen : count ≤ maxInt64) :
    CacheTable.MostAccessed count w = .ok
      (((sortSort (accessPairs w.table.items)).take count.toNat).filterMap
          (fun v => w.table.items.lookup v.Key),
        { table := w.table, trace := w.trace ++ [Event.RLock, Event.RUnlock] }) := by
  rw [MostAccessed_spec count w hm]
  have h := mostAccessedLoop_eq w.table.items count (sortSort (accessPairs w.table.items)) 0 []
    (le_refl 0) hlen
  simp only [accessPairs] at h
  simp only [accessPairs, h]
  simp

theorem sortSort_lookup (items : Items) :
    ∀ v ∈ sortSort (accessPairs items), ∃ item, items.lookup v.Key = some item ∧
      v.AccessCount = item.accessdCount := by
  intro v hv
  exact accessPairs_lookup items v ((List.mem_insertionSort _).mp hv)

theorem sortSort_keys_nodup (items : Items) :
    ((sortSort (accessPairs items)).map CacheItemPair.Key).Nodup := by
  have hp : ((sortSort (accessPairs items)).map CacheItemPair.Key).Perm
      ((accessPairs items).map CacheItemPair.Key) :=
    (List.perm_insertionSort _ _).map _
  rw [hp.nodup_iff, accessPairs_keys]
  exact items.keys_nodup

/-- C13: for every count `n`, `MostAccessed(n)` returns entries stored under
pairwise distinct keys of the table (so pairwise distinct entries), as many as
`min(max(n, 0), Count())`, and leaves the table and every entry as they were.
The count `n` is a value of type `int64`. -/
theorem MostAccessed_returns_distinct_stored_entries (w : World) (n : Int)
    (hfree : w.table.mutex = RWMutex.free) (hlen : n ≤ maxInt64) :
    ∃ r w' ks, CacheTable.MostAccessed n w = .ok (r, w') ∧
      w'.table = w.table ∧
      ks.Nodup ∧
      List.Forall₂ (fun k item => w.table.items.lookup k = some item) ks r ∧
      ((∀ k item, w.table.items.lookup k = some item → item.key = k) → r.Nodup) ∧
      (r.length : Int) = min (max n 0) (w.table.items.entries.length : Int) ∧
      (∃ c : Nat, Prod.fst <$> CacheTable.Count w = .ok c ∧
        (r.length : Int) = min (max n 0) (c : Int)) := by
  have hall : ∀ v ∈ (sortSort (accessPairs w.table.items)).take n.toNat,
      ∃ item, w.table.items.lookup v.Key = some item ∧ v.AccessCount = item.accessdCount :=
    fun v hv => sortSort_lookup _ v (List.mem_of_mem_take hv)
  have hf := forall₂_lookup w.table.items _ hall
  have hnd : (((sortSort (accessPairs w.table.items)).take n.toNat).map
      CacheItemPair.Key).Nodup :=
    (sortSort_keys_nodup w.table.items).sublist ((List.take_sublist _ _).map _)
  have hlen' : ((((sortSort (accessPairs w.table.items)).take n.toNat).filterMap
      (fun v => w.table.items.lookup v.Key)).length : Int)
      = min (max n 0) (w.table.items.entries.length : Int) := by
    rw [← hf.length_eq]
    simp only [List.length_map, List.length_take, sortSort, List.length_insertionSort,
      accessPairs]
    omega
  refine ⟨_, _, _, MostAccessed_result n w hfree hlen, rfl, hnd, hf, ?_, hlen',
    ⟨_, Count_result w hfree, hlen'⟩⟩
  intro hwf
  have hkeys : (((sortSort (accessPairs w.table.items)).take n.toNat).filterMap
      (fun v => w.table.items.lookup v.Key)).map CacheItem.key
      = ((sortSort (accessPairs w.table.items)).take n.toNat).map CacheItemPair.Key := by
    generalize ((sortSort (accessPairs w.table.items)).take n.toNat).map CacheItemPair.Key
      = ks at hf
    generalize ((sortSort (accessPairs w.table.items)).take n.toNat).filterMap
      (fun v => w.table.items.lookup v.Key) = r at hf
    induction hf with
    | nil => rfl
    | cons h _ ih => simp [hwf _ _ h, ih]
  exact List.Nodup.of_map CacheItem.key (hkeys ▸ hnd)

/-- Witness of C13: `MostAccessed(2)` on the table with three entries. -/
theorem MostAccessed_returns_distinct_stored_entries_witness :
    exampleCountsWorld.table.mutex = RWMutex.free ∧
    (2 : Int) ≤ maxInt64 ∧
    ∃ r w' ks, CacheTable.MostAccessed 2 exampleCountsWorld = .ok (r, w') ∧
      w'.table = exampleCountsWorld.table ∧
      ks.Nodup ∧
      List.Forall₂ (fun k item => exampleCountsWorld.table.items.lookup k = some item) ks r ∧
      ((∀ k item, exampleCountsWorld.table.items.lookup k = some item → item.key = k) →
        r.Nodup) ∧
      (r.length : Int) = min (max 2 0) (exampleCountsWorld.table.items.entries.length : Int) ∧
      (∃ c : Nat, Prod.fst <$> CacheTable.Count exampleCountsWorld = .ok c ∧
        (r.length : Int) = min (max 2 0) (c : Int)) :=
  ⟨rfl, by decide, MostAccessed_returns_distinct_stored_entries exampleCountsWorld 2 rfl
    (by decide)⟩

/-- C12 (code at the failing input): with access counts 1, 5 and 3,
`MostAccessed(2)` returns the entries with the counts 1 and 3 and leaves out
the most accessed one, with the count 5. -/
theorem MostAccessed_returns_the_least_accessed :
    exampleCountsWorld.table.items.lookup 1 = some (countedItem 1 1) ∧
    exampleCountsWorld.table.items.lookup 2 = some (countedItem 2 5) ∧
    exampleCountsWorld.table.items.lookup 3 = some (countedItem 3 3) ∧
    Prod.fst <$> CacheTable.MostAccessed 2 exampleCountsWorld
      = .ok [countedItem 1 1, countedItem 3 3] ∧
    (countedItem 1 1).AccessdCount < (countedItem 2 5).AccessdCount := by
  refine ⟨by decide, by decide, by decide, ?_, by decide⟩
  rw [MostAccessed_spec 2 exampleCountsWorld rfl]
  rfl

theorem sortSort_sorted (p : CacheItemPairList) :
    (sortSort p).Sorted (fun a b => a.AccessCount ≤ b.AccessCount) := by
  haveI : IsTotal CacheItemPair (fun a b => CacheItemPairList.Less b a = false) :=
    ⟨fun a b => by simp only [CacheItemPairList.Less, decide_eq_false_iff_not]; omega⟩
  haveI : IsTrans CacheItemPair (fun a b => CacheItemPairList.Less b a = false) :=
    ⟨fun a b c => by simp only [CacheItemPairList.Less, decide_eq_false_iff_not]; omega⟩
  have h := List.sorted_insertionSort (fun a b => CacheItemPairList.Less b a = false) p
  refine List.Pairwise.imp ?_ h
  intro a b hab
  simp only [CacheItemPairList.Less, decide_eq_false_iff_not] at hab
  omega

/-- What the code of `MostAccessed` does: it returns the front of the ascending
order, so every returned entry has an access count less than or equal to the
access count of every stored entry that is not returned. -/
theorem MostAccessed_front_of_ascending_order (w : World) (n : Int)
    (hfree : w.table.mutex = RWMutex.free) (hlen : n ≤ maxInt64) :
    ∃ r w', CacheTable.MostAccessed n w = .ok (r, w') ∧
      ∀ item ∈ r, ∀ k' item', w.table.items.lookup k' = some item' → item' ∉ r →
        item.accessdCount ≤ item'.accessdCount := by
  refine ⟨_, _, MostAccessed_result n w hfree hlen, ?_⟩
  intro item hitem k' item' hk' hnot
  simp only [List.mem_filterMap] at hitem hnot
  obtain ⟨v, hv, hvl⟩ := hitem
  obtain ⟨vi, hvi, hvc⟩ := sortSort_lookup _ v (List.mem_of_mem_take hv)
  rw [hvl] at hvi
  cases hvi
  have hu : (⟨k', item'.accessdCount⟩ : CacheItemPair) ∈ sortSort (accessPairs w.table.items) := by
    rw [sortSort, List.mem_insertionSort]
    simp only [accessPairs, List.mem_map]
    exact ⟨⟨k', item'⟩, AList.mem_lookup_iff.mp (by simp [hk']), rfl⟩
  rw [← List.take_append_drop n.toNat (sortSort (accessPairs w.table.items)),
    List.mem_append] at hu
  rcases hu with hu | hu
  · exact absurd ⟨_, hu, hk'⟩ hnot
  · have := (sortSort_sorted (accessPairs w.table.items)).rel_of_mem_take_of_mem_drop hv hu
    simp only at this
    omega

theorem wrapInt64_wrapInt64_succ (x : Int) : wrapInt64 (wrapInt64 x + 1) = wrapInt64 (x + 1) := by
  simp only [wrapInt64]
  omega

theorem keepAlives_append (item : CacheItem) (ts : List Time) (t : Time) :
    keepAlives item (ts ++ [t]) = (keepAlives item ts).KeepAlive t := by
  simp [keepAlives, List.foldl_append]

theorem keepAlives_fields (item : CacheItem) (ts : List Time) :
    (keepAlives item ts).key = item.key ∧ (keepAlives item ts).data = item.data ∧
      (keepAlives item ts).lifeSpan = item.lifeSpan ∧
      (keepAlives item ts).createdOn = item.createdOn ∧
      (keepAlives item ts).aboutToExpire = item.aboutToExpire := by
  induction ts using List.reverseRecOn with
  | nil => simp [keepAlives]
  | append_singleton ts t ih =>
    rw [keepAlives_append]
    simpa [CacheItem.KeepAlive] using ih

theorem keepAlives_count (item : CacheItem) (ts : List Time) :
    (keepAlives item ts).accessdCount
      = if ts = [] then item.accessdCount else wrapInt64 (item.accessdCount + ts.length) := by
  induction ts using List.reverseRecOn with
  | nil => simp [keepAlives]
  | append_singleton ts t ih =>
    rw [keepAlives_append]
    simp only [CacheItem.KeepAlive, ih, List.append_eq_nil, List.cons_ne_self, and_false,
      if_false, List.length_append, List.length_singleton, Nat.cast_add, Nat.cast_one]
    split
    · rename_i h
      simp [h]
    · rw [wrapInt64_wrapInt64_succ, add_assoc]

theorem keepAlives_accessdOn (item : CacheItem) (ts : List Time) :
    (keepAlives item ts).accessdOn = (ts.getLast?).getD item.accessdOn := by
  induction ts using List.reverseRecOn with
  | nil => simp [keepAlives]
  | append_singleton ts t _ =>
    rw [keepAlives_append]
    simp [CacheItem.KeepAlive]

/-- C15, as amended: an entry built by `NewCacheItem` at `t₀` and then kept
alive at non-decreasing clock readings, at most `2^63 - 1` times, has at every
moment of its history `lastAccessAt >= createdAt` and an access count equal to
the number of calls so far (so each call raises it by one, from 0), and its
key, value, TTL and creation time are the ones it was built with. -/
theorem KeepAlive_counts_the_calls (key : Key) (ttl : Duration) (v : Data) (t₀ : Time)
    (ts : List Time) (hmono : (t₀ :: ts).Sorted (· ≤ ·))
    (hlen : (ts.length : Int) ≤ maxInt64) :
    ∀ done rest : List Time, ts = done ++ rest →
      (keepAlives (NewCacheItem key ttl v t₀) done).AccessOn
        ≥ (keepAlives (NewCacheItem key ttl v t₀) done).createdOn ∧
      (keepAlives (NewCacheItem key ttl v t₀) done).AccessdCount = done.length ∧
      (∀ t, done ++ [t] <+: ts →
        (keepAlives (NewCacheItem key ttl v t₀) (done ++ [t])).AccessdCount
          = (keepAlives (NewCacheItem key ttl v t₀) done).AccessdCount + 1) ∧
      (keepAlives (NewCacheItem key ttl v t₀) done).Key = key ∧
      (keepAlives (NewCacheItem key ttl v t₀) done).Data = v ∧
      (keepAlives (NewCacheItem key ttl v t₀) done).LifeSpan = ttl ∧
      (keepAlives (NewCacheItem key ttl v t₀) done).createdOn = t₀ := by
  intro done rest hts
  have hcount : ∀ l : List Time, (l.length : Int) ≤ maxInt64 →
      (keepAlives (NewCacheItem key ttl v t₀) l).accessdCount = l.length := by
    intro l hl
    rw [keepAlives_count]
    split
    · rename_i h
      simp [h, NewCacheItem]
    · simp only [NewCacheItem, zero_add]
      exact wrapInt64_of_range _ (by simp only [minInt64]; omega) hl
  have hdone : (done.length : Int) ≤ maxInt64 := by
    have : done.length ≤ ts.length := by rw [hts]; simp
    omega
  obtain ⟨hk, hd, hl, hc, _⟩ := keepAlives_fields (NewCacheItem key ttl v t₀) done
  refine ⟨?_, hcount done hdone, ?_, hk, hd, hl, hc⟩
  · simp only [CacheItem.AccessOn, keepAlives_accessdOn, hc]
    cases hlast : done.getLast? with
    | none => simp [NewCacheItem]
    | some t =>
      have hmem : t ∈ ts := by
        rw [hts]
        exact List.mem_append_left _ (List.mem_of_getLast?_eq_some hlast)
      simpa [NewCacheItem] using List.rel_of_sorted_cons hmono t hmem
  · intro t hpre
    have hl' : ((done ++ [t]).length : Int) ≤ maxInt64 := by
      have := hpre.length_le
      omega
    simp only [CacheItem.AccessdCount, hcount _ hl', hcount done hdone, List.length_append,
      List.length_singleton, Nat.cast_add, Nat.cast_one]

/-- Witness of C15, as amended: three calls of `KeepAlive`, at 10, 10 and 25,
on an entry built at 5. -/
theorem KeepAlive_counts_the_calls_witness :
    ((5 : Time) :: [10, 10, 25]).Sorted (· ≤ ·) ∧
    (([10, 10, 25] : List Time).length : Int) ≤ maxInt64 ∧
    (keepAlives (NewCacheItem 1 (100 * Millisecond) (Data.atom 7) 5) [10, 10, 25]).AccessOn
      ≥ (keepAlives (NewCacheItem 1 (100 * Millisecond) (Data.atom 7) 5) [10, 10, 25]).createdOn ∧
    (keepAlives (NewCacheItem 1 (100 * Millisecond) (Data.atom 7) 5) [10, 10, 25]).AccessdCount
      = 3 := by
  have hs : ((5 : Time) :: [10, 10, 25]).Sorted (· ≤ ·) := by decide
  have h := KeepAlive_counts_the_calls 1 (100 * Millisecond) (Data.atom 7) 5 [10, 10, 25] hs
    (by decide) [10, 10, 25] [] (by simp)
  exact ⟨hs, by decide, h.1, h.2.1⟩

theorem keepAlives_replicate_count (key : Key) (ttl : Duration) (v : Data) (t₀ t : Time)
    (n : Nat) (hn : n ≠ 0) :
    (keepAlives (NewCacheItem key ttl v t₀) (List.replicate n t)).AccessdCount
      = wrapInt64 (n : Int) := by
  rw [CacheItem.AccessdCount, keepAlives_count, if_neg (by rw [List.replicate_eq_nil_iff]; exact hn),
    List.length_replicate]
  simp only [NewCacheItem, zero_add]

theorem sorted_cons_replicate (t : Time) (n : Nat) :
    (t :: List.replicate n t).Sorted (· ≤ ·) := by
  rw [← List.replicate_succ]
  exact List.pairwise_replicate.mpr (Or.inr (le_refl t))

/-- C15 (counterexample): on an entry built by `NewCacheItem`, the call
number `2^63` of `KeepAlive` (all calls at the clock reading 0) takes the access
count from `2^63 - 1` down to `-2^63`: the count has decreased and is not the
number of calls. -/
theorem KeepAlive_wraps_the_access_count :
    (keepAlives (NewCacheItem 1 0 (Data.atom 1) 0)
        (List.replicate 9223372036854775807 0)).AccessdCount = 9223372036854775807 ∧
    (keepAlives (NewCacheItem 1 0 (Data.atom 1) 0)
        (List.replicate 9223372036854775808 0)).AccessdCount = -9223372036854775808 ∧
    ((0 : Time) :: List.replicate 9223372036854775808 0).Sorted (· ≤ ·) :=
  ⟨(keepAlives_replicate_count 1 0 (Data.atom 1) 0 0 9223372036854775807 (by decide)).trans
      (by decide),
    (keepAlives_replicate_count 1 0 (Data.atom 1) 0 0 9223372036854775808 (by decide)).trans
      (by decide),
    sorted_cons_replicate 0 9223372036854775808⟩

theorem smallestAfter_spec (now : Time) (es : List (Sigma fun _ : Key => CacheItem)) :
    ∀ sm : Duration, 0 ≤ sm →
      (∀ e ∈ es, finiteSurvivor now e.2 → remaining now e.2 ≤ maxInt64) →
      0 ≤ smallestAfter now es sm ∧
      (sm ≠ 0 → smallestAfter now es sm ≤ sm) ∧
      (∀ e ∈ es, finiteSurvivor now e.2 → smallestAfter now es sm ≤ remaining now e.2) ∧
      (smallestAfter now es sm = sm ∨
        ∃ e ∈ es, finiteSurvivor now e.2 ∧ smallestAfter now es sm = remaining now e.2) ∧
      (smallestAfter now es sm = 0 ↔ sm = 0 ∧ ∀ e ∈ es, ¬ finiteSurvivor now e.2) := by
  induction es with
  | nil => intro sm h0 _; simp [smallestAfter, h0]
  | cons e rest ih =>
    intro sm h0 hfit
    obtain ⟨key, item⟩ := e
    have hfit' : ∀ e ∈ rest, finiteSurvivor now e.2 → remaining now e.2 ≤ maxInt64 :=
      fun e he => hfit e (List.mem_cons_of_mem _ he)
    by_cases hs : expired now item ∨ item.lifeSpan = 0
    · have hnf : ¬ finiteSurvivor now item := by
        rintro ⟨h1, h2⟩
        rcases hs with hs | hs
        · exact h2 hs
        · exact h1 hs
      obtain ⟨i0, i1, i2, i3, i4⟩ := ih sm h0 hfit'
      simp only [smallestAfter, hs, if_true]
      refine ⟨i0, i1, ?_, ?_, ?_⟩
      · intro e he hf
        rcases List.mem_cons.mp he with rfl | he
        · exact absurd hf hnf
        · exact i2 e he hf
      · rcases i3 with h | ⟨e, he, hf, h⟩
        · exact Or.inl h
        · exact Or.inr ⟨e, List.mem_cons_of_mem _ he, hf, h⟩
      · rw [i4]
        constructor
        · rintro ⟨h1, h2⟩
          refine ⟨h1, fun e he => ?_⟩
          rcases List.mem_cons.mp he with rfl | he
          · exact hnf
          · exact h2 e he
        · rintro ⟨h1, h2⟩
          exact ⟨h1, fun e he => h2 e (List.mem_cons_of_mem _ he)⟩
    · have hf : finiteSurvivor now item := by
        constructor
        · exact fun h => hs (Or.inr h)
        · exact fun h => hs (Or.inl h)
      have hle : remaining now item ≤ maxInt64 := hfit ⟨key, item⟩ (List.mem_cons_self _ _) hf
      have hpos : 0 < remaining now item := by
        have h1 : ¬ (Time.Sub now item.accessdOn ≥ item.lifeSpan) := fun h => hf.2 ⟨hf.1, h⟩
        exact sub_pos.mpr (lt_of_not_ge h1)
      have hw : wrapInt64 (item.lifeSpan - Time.Sub now item.accessdOn) = remaining now item :=
        wrapInt64_of_range _ (le_trans (by decide) (le_of_lt hpos)) hle
      simp only [smallestAfter, hs, if_false, hw]
      by_cases hc : sm = 0 ∨ remaining now item < sm
      · obtain ⟨i0, i1, i2, i3, i4⟩ := ih (remaining now item) (le_of_lt hpos) hfit'
        have hne : remaining now item ≠ 0 := ne_of_gt hpos
        simp only [hc, if_true]
        refine ⟨i0, ?_, ?_, ?_, ?_⟩
        · intro hsm
          have := i1 hne
          rcases hc with hc | hc
          · exact absurd hc hsm
          · exact le_trans this (le_of_lt hc)
        · intro e he hf'
          rcases List.mem_cons.mp he with rfl | he
          · exact i1 hne
          · exact i2 e he hf'
        · rcases i3 with h | ⟨e, he, hf', h⟩
          · exact Or.inr ⟨⟨key, item⟩, List.mem_cons_self _ _, hf, h⟩
          · exact Or.inr ⟨e, List.mem_cons_of_mem _ he, hf', h⟩
        · constructor
          · intro h
            exact absurd (i4.mp h).1 hne
          · rintro ⟨_, h2⟩
            exact absurd hf (h2 _ (List.mem_cons_self _ _))
      · obtain ⟨i0, i1, i2, i3, i4⟩ := ih sm h0 hfit'
        have hsm : sm ≠ 0 := fun h => hc (Or.inl h)
        have hge : sm ≤ remaining now item := by
          exact not_lt.mp fun h => hc (Or.inr h)
        simp only [hc, if_false]
        refine ⟨i0, i1, ?_, ?_, ?_⟩
        · intro e he hf'
          rcases List.mem_cons.mp he with rfl | he
          · exact le_trans (i1 hsm) hge
          · exact i2 e he hf'
        · rcases i3 with h | ⟨e, he, hf', h⟩
          · exact Or.inl h
          · exact Or.inr ⟨e, List.mem_cons_of_mem _ he, hf', h⟩
        · constructor
          · intro h
            exact absurd (i4.mp h).1 hsm
          · rintro ⟨h1, _⟩
            exact absurd h1 hsm

theorem lookup_sweepTable (now : Time) (t : CacheTable) (k : Key) (item : CacheItem) :
    (sweepTable now t).items.lookup k = some item
      ↔ t.items.lookup k = some item ∧ ¬ expired now item := by
  simp only [sweepTable, lookup_sweep]
  cases h : t.items.lookup k with
  | none => simp [Option.filter]
  | some item' =>
    by_cases he : expired now item'
    · simp only [Option.filter, he, not_true_eq_false, decide_False, Bool.false_eq_true,
        if_false, Option.some.injEq]
      constructor
      · intro hc
        cases hc
      · rintro ⟨rfl, hne⟩
        exact absurd he hne
    · simp only [Option.filter, he, not_false_eq_true, decide_True, if_true, Option.some.injEq]
      constructor
      · rintro rfl
        exact ⟨rfl, he⟩
      · exact fun h => h.1

theorem mem_entries_of_lookup (m : Items) (k : Key) (item : CacheItem)
    (h : m.lookup k = some item) : (⟨k, item⟩ : Sigma fun _ : Key => CacheItem) ∈ m.entries :=
  AList.mem_lookup_iff.mp (by simp [h])

/-- What one pass of the sweep schedules, when the remaining life of every
entry fits in an `int64`. -/
theorem sweep_interval (w : World) (now : Time) (hfree : w.table.mutex = RWMutex.free)
    (hfit : ∀ k item, w.table.items.lookup k = some item → remaining now item ≤ maxInt64) :
    ∃ w', CacheTable.expirationCheck now w = .ok w' ∧
      w'.table = sweepTable now w.table ∧
      0 ≤ w'.table.cleanupInterval ∧
      (∀ k item, w'.table.items.lookup k = some item → item.lifeSpan ≠ 0 →
        0 < w'.table.cleanupInterval ∧
        w'.table.cleanupInterval ≤ item.lifeSpan - Time.Sub now item.accessdOn) ∧
      ((∃ k item, w'.table.items.lookup k = some item ∧ item.lifeSpan ≠ 0) →
        ∃ k item, w'.table.items.lookup k = some item ∧ item.lifeSpan ≠ 0 ∧
          w'.table.cleanupInterval = item.lifeSpan - Time.Sub now item.accessdOn) ∧
      (w'.table.cleanupInterval = 0 ↔
        ¬ ∃ k item, w'.table.items.lookup k = some item ∧ item.lifeSpan ≠ 0) ∧
      (0 < w'.table.cleanupInterval →
        w'.table.cleanupTimer = some ⟨w'.table.cleanupInterval, true⟩) ∧
      (¬ 0 < w'.table.cleanupInterval →
        ∀ t, w'.table.cleanupTimer = some t → t.pending = false) := by
  obtain ⟨i0, _, i2, i3, i4⟩ := smallestAfter_spec now w.table.items.entries 0 (le_refl 0)
    (fun e he _ => hfit e.1 e.2 (lookup_of_mem_entries _ e he))
  have hzero : smallestAfter now w.table.items.entries 0 = 0 ↔
      ¬ ∃ k item, (sweepTable now w.table).items.lookup k = some item ∧ item.lifeSpan ≠ 0 := by
    rw [i4]
    constructor
    · rintro ⟨_, h⟩ ⟨k, item, hl, h0⟩
      rw [lookup_sweepTable] at hl
      exact h ⟨k, item⟩ (mem_entries_of_lookup _ _ _ hl.1) ⟨h0, hl.2⟩
    · intro h
      refine ⟨rfl, fun e he hf => h ⟨e.1, e.2, ?_, hf.1⟩⟩
      rw [lookup_sweepTable]
      exact ⟨lookup_of_mem_entries _ e he, hf.2⟩
  refine ⟨_, expirationCheck_spec now w hfree, rfl, i0, ?_, ?_, hzero, ?_, ?_⟩
  · intro k item hl h0
    have hl' := (lookup_sweepTable now w.table k item).mp hl
    refine ⟨lt_of_le_of_ne i0 (Ne.symm fun h => hzero.mp h ⟨k, item, hl, h0⟩), ?_⟩
    exact i2 ⟨k, item⟩ (mem_entries_of_lookup _ _ _ hl'.1) ⟨h0, hl'.2⟩
  · intro hex
    rcases i3 with h | ⟨e, he, hf, h⟩
    · exact absurd hex (hzero.mp h)
    · refine ⟨e.1, e.2, ?_, hf.1, h⟩
      rw [lookup_sweepTable]
      exact ⟨lookup_of_mem_entries _ e he, hf.2⟩
  · intro hpos
    exact if_pos hpos
  · intro hpos t ht
    simp only [sweepTable] at ht hpos
    rw [if_neg hpos] at ht
    cases hc : w.table.cleanupTimer with
    | none => simp [hc] at ht
    | some t₀ =>
      simp only [hc, Option.map_some', Option.some.injEq] at ht
      rw [← ht]
      rfl

/-- The subtraction `lifeSpan - now.Sub(accessOn)` of the sweep is an `int64`
subtraction. In `exampleLongLivedWorld` the only entry has the largest TTL and
a last read one nanosecond after the clock reading 0 handed to the sweep, which
no execution with a clock that never goes back produces: the difference `2^63`
wraps to `-2^63` and no timer is set. -/
theorem sweep_interval_overflows :
    ∃ w' item, CacheTable.expirationCheck 0 exampleLongLivedWorld = .ok w' ∧
      w'.table.items.lookup 1 = some item ∧ item.lifeSpan ≠ 0 ∧
      item.lifeSpan - Time.Sub 0 item.accessdOn = 9223372036854775808 ∧
      w'.table.cleanupInterval = -9223372036854775808 ∧
      w'.table.cleanupTimer = none :=
  ⟨_, { key := 1, data := Data.atom 1, lifeSpan := 9223372036854775807, createdOn := 0,
         accessdOn := 1, accessdCount := 1, aboutToExpire := [] },
    expirationCheck_spec 0 exampleLongLivedWorld rfl, by decide, by decide, by decide,
    by decide, by decide⟩

theorem Time.Sub_nonneg (now t : Time) (h : t ≤ now) : 0 ≤ Time.Sub now t := by
  have h' : (0 : Int) ≤ now - t := sub_nonneg.mpr h
  simp only [Time.Sub, clampInt64, minInt64, maxInt64]
  split
  · omega
  · split
    · decide
    · exact h'

theorem remaining_fits (now : Time) (item : CacheItem) (h : item.accessdOn ≤ now)
    (hl : item.lifeSpan ≤ maxInt64) : remaining now item ≤ maxInt64 := by
  have := Time.Sub_nonneg now item.accessdOn h
  simp only [remaining]
  exact le_trans (sub_le_self _ this) hl

theorem Timed.mono {lo now : Time} {t : CacheTable} (h : Timed lo t) (hle : lo ≤ now) :
    Timed now t :=
  ⟨h.1, h.2.1, fun k item hl => ⟨le_trans (h.2.2 k item hl).1 hle, (h.2.2 k item hl).2⟩⟩

theorem sweepTable_scheduled (now : Time) (t : CacheTable) (h : Timed now t) :
    Timed now (sweepTable now t) ∧ Scheduled (sweepTable now t) := by
  obtain ⟨w', hrun, htab, h0, hmin, _, _, _, _⟩ := sweep_interval ⟨t, []⟩ now h.1
    (fun k item hl => remaining_fits now item (h.2.2 k item hl).1 (h.2.2 k item hl).2)
  simp only at htab
  rw [htab] at h0 hmin
  refine ⟨⟨h.1, h0, fun k item hl => h.2.2 k item ((lookup_sweepTable now t k item).mp hl).1⟩, ?_⟩
  rintro ⟨k, item, hl, hpos⟩
  exact (hmin k item hl (ne_of_gt hpos)).1

theorem addTable_scheduled (lo tCreate tSweep : Time) (key : Key) (lifeSpan : Duration)
    (data : Data) (t : CacheTable) (h : Timed lo t) (hs : Scheduled t) (h1 : lo ≤ tCreate)
    (h2 : tCreate ≤ tSweep) (hl : lifeSpan ≤ maxInt64) :
    Timed tSweep (addTable (NewCacheItem key lifeSpan data tCreate) tSweep t) ∧
      Scheduled (addTable (NewCacheItem key lifeSpan data tCreate) tSweep t) := by
  have hins : Timed tSweep
      { t with items := t.items.insert key (NewCacheItem key lifeSpan data tCreate) } := by
    refine ⟨h.1, h.2.1, fun k item hk => ?_⟩
    by_cases hkey : k = key
    · subst hkey
      simp only [AList.lookup_insert, Option.some.injEq] at hk
      subst hk
      exact ⟨h2, hl⟩
    · simp only [AList.lookup_insert_ne hkey] at hk
      exact ⟨le_trans (h.2.2 k item hk).1 (le_trans h1 h2), (h.2.2 k item hk).2⟩
  simp only [addTable]
  split
  · exact sweepTable_scheduled tSweep _ hins
  · rename_i hc
    refine ⟨hins, ?_⟩
    rintro ⟨k, item, hk', hpos⟩
    have hk : (t.items.insert key (NewCacheItem key lifeSpan data tCreate)).lookup k
        = some item := hk'
    clear hk'
    show 0 < t.cleanupInterval
    by_cases hkey : k = key
    · subst hkey
      simp only [AList.lookup_insert, Option.some.injEq] at hk
      subst hk
      have hpos' : 0 < lifeSpan := hpos
      have hc' : ¬ (lifeSpan > 0 ∧ (t.cleanupInterval = 0 ∨ lifeSpan < t.cleanupInterval)) := hc
      have h0 := h.2.1
      by_contra hn
      have hz : t.cleanupInterval = 0 := le_antisymm (not_lt.mp hn) h0
      exact hc' ⟨hpos', Or.inl hz⟩
    · simp only [AList.lookup_insert_ne hkey] at hk
      exact hs ⟨k, item, hk, hpos⟩

theorem scheduled_step (lo : Time) (s : Step) (w w' : World) (ht : s.timely lo)
    (hty : s.typed) (h : Timed lo w.table) (hs : Scheduled w.table)
    (hrun : s.run w = .ok w') :
    Timed (s.latest lo) w'.table ∧ Scheduled w'.table := by
  have hfree := h.1
  cases s with
  | sweep now =>
    simp only [Step.run, expirationCheck_spec now w hfree, Except.ok.injEq] at hrun
    subst hrun
    exact sweepTable_scheduled now _ (h.mono ht)
  | value key args tAccess tCreate tSweep =>
    simp [Step.run, Value_faults, Functor.map, Except.map] at hrun
  | add key lifeSpan data tCreate tSweep =>
    simp only [Step.run, Add_spec key lifeSpan data tCreate tSweep w hfree, Functor.map,
      Except.map, Except.ok.injEq] at hrun
    subst hrun
    exact addTable_scheduled lo tCreate tSweep key lifeSpan data _ h hs ht.1 ht.2 hty.2
  | notFoundAdded key lifeSpan data tCreate tSweep =>
    cases hl : w.table.items.lookup key with
    | none =>
      simp only [Step.run, NotFoundAdded_absent key lifeSpan data tCreate tSweep w hfree hl,
        Functor.map, Except.map, Except.ok.injEq] at hrun
      subst hrun
      exact addTable_scheduled lo tCreate tSweep key lifeSpan _ _ h hs ht.1 ht.2 hty.2
    | some r =>
      simp only [Step.run, NotFoundAdded_present key lifeSpan data tCreate tSweep r w hfree hl,
        Functor.map, Except.map, Except.ok.injEq] at hrun
      subst hrun
      exact ⟨h.mono (le_trans ht.1 ht.2), hs⟩
  | delete key =>
    cases hl : w.table.items.lookup key with
    | none =>
      simp only [Step.run, Delete_absent key w hfree hl, Functor.map, Except.map,
        Except.ok.injEq] at hrun
      subst hrun
      exact ⟨h, hs⟩
    | some r =>
      simp only [Step.run, Delete_present key r w hfree hl, Functor.map, Except.map,
        Except.ok.injEq] at hrun
      subst hrun
      have hsub : ∀ k item, (w.table.items.erase key).lookup k = some item →
          w.table.items.lookup k = some item := by
        intro k item hk
        by_cases hkey : k = key
        · subst hkey
          simp [AList.lookup_erase] at hk
        · simpa [AList.lookup_erase_ne hkey] using hk
      refine ⟨⟨hfree, h.2.1, fun k item hk => h.2.2 k item (hsub k item hk)⟩, ?_⟩
      rintro ⟨k, item, hk, hpos⟩
      exact hs ⟨k, item, hsub k item hk, hpos⟩
  | flush =>
    simp only [Step.run, Flush_spec w hfree, Except.ok.injEq] at hrun
    subst hrun
    refine ⟨⟨hfree, le_refl 0, fun k item hk => ?_⟩, ?_⟩
    · simp [AList.lookup_empty] at hk
    · rintro ⟨k, item, hk, _⟩
      simp [AList.lookup_empty] at hk

theorem step_returns_of_free (s : Step) (w : World) (hfree : w.table.mutex = RWMutex.free)
    (hv : s.isValue = false) : ∃ w', s.run w = .ok w' := by
  cases s with
  | sweep now => exact ⟨_, expirationCheck_spec now w hfree⟩
  | value key args tAccess tCreate tSweep => simp [Step.isValue] at hv
  | add key lifeSpan data tCreate tSweep =>
    exact ⟨_, by simp only [Step.run, Add_spec key lifeSpan data tCreate tSweep w hfree]; rfl⟩
  | notFoundAdded key lifeSpan data tCreate tSweep =>
    cases hl : w.table.items.lookup key with
    | none =>
      exact ⟨_, by
        simp only [Step.run, NotFoundAdded_absent key lifeSpan data tCreate tSweep w hfree hl]
        rfl⟩
    | some r =>
      exact ⟨_, by
        simp only [Step.run, NotFoundAdded_present key lifeSpan data tCreate tSweep r w hfree hl]
        rfl⟩
  | delete key =>
    cases hl : w.table.items.lookup key with
    | none => exact ⟨_, by simp only [Step.run, Delete_absent key w hfree hl]; rfl⟩
    | some r => exact ⟨_, by simp only [Step.run, Delete_present key r w hfree hl]; rfl⟩
  | flush => exact ⟨_, Flush_spec w hfree⟩

theorem scheduled_steps (steps : List Step) :
    ∀ (lo : Time) (w : World), timelySteps lo steps → (∀ s ∈ steps, s.typed) →
      Timed lo w.table → Scheduled w.table →
      (∀ w', runSteps steps w = .ok w' → w'.table.mutex = RWMutex.free ∧ Scheduled w'.table) ∧
      ((∀ s ∈ steps, s.isValue = false) → ∃ w', runSteps steps w = .ok w') := by
  induction steps with
  | nil =>
    intro lo w _ _ h hs
    exact ⟨fun w' hrun => by
      simp only [runSteps, pure, Except.pure, Except.ok.injEq] at hrun
      subst hrun
      exact ⟨h.1, hs⟩, fun _ => ⟨w, rfl⟩⟩
  | cons s rest ih =>
    intro lo w ht hty h hs
    have hty0 : s.typed := hty s (List.mem_cons_self _ _)
    have htyr : ∀ s ∈ rest, s.typed := fun s hmem => hty s (List.mem_cons_of_mem _ hmem)
    constructor
    · intro w' hrun
      cases h1 : s.run w with
      | error f => simp [runSteps, h1, bind, Except.bind] at hrun
      | ok w₁ =>
        simp only [runSteps, h1, bind, Except.bind] at hrun
        obtain ⟨ht1, hs1⟩ := scheduled_step lo s w w₁ ht.1 hty0 h hs h1
        exact (ih _ w₁ ht.2 htyr ht1 hs1).1 w' hrun
    · intro hnv
      obtain ⟨w₁, h1⟩ := step_returns_of_free s w h.1 (hnv s (List.mem_cons_self _ _))
      obtain ⟨ht1, hs1⟩ := scheduled_step lo s w w₁ ht.1 hty0 h hs h1
      obtain ⟨w', hw'⟩ := (ih _ w₁ ht.2 htyr ht1 hs1).2
        (fun s hmem => hnv s (List.mem_cons_of_mem _ hmem))
      exact ⟨w', by simp only [runSteps, h1, bind, Except.bind]; exact hw'⟩

theorem Timed_Cache (lo : Time) (name : String) : Timed lo (Cache name) ∧ Scheduled (Cache name) := by
  refine ⟨⟨rfl, le_refl 0, fun k item h => ?_⟩, ?_⟩
  · simp [Cache, AList.lookup_empty] at h
  · rintro ⟨k, item, h, _⟩
    simp [Cache, AList.lookup_empty] at h

/-- The calls keep the table well formed: run from a state whose entries were
last read at `lo` at the latest, calls whose clock readings never go back leave
a state whose entries were last read at the latest clock reading of the calls
at the latest, with TTLs of type `time.Duration` and the lock free. -/
theorem timed_steps (steps : List Step) :
    ∀ (lo : Time) (w : World), timelySteps lo steps → (∀ s ∈ steps, s.typed) →
      Timed lo w.table → Scheduled w.table →
      ∀ w', runSteps steps w = .ok w' → Timed (latestSteps lo steps) w'.table := by
  induction steps with
  | nil =>
    intro lo w _ _ h _ w' hrun
    simp only [runSteps, pure, Except.pure, Except.ok.injEq] at hrun
    subst hrun
    exact h
  | cons s rest ih =>
    intro lo w ht hty h hs w' hrun
    cases h1 : s.run w with
    | error f => simp [runSteps, h1, bind, Except.bind] at hrun
    | ok w₁ =>
      simp only [runSteps, h1, bind, Except.bind] at hrun
      obtain ⟨ht1, hs1⟩ :=
        scheduled_step lo s w w₁ ht.1 (hty s (List.mem_cons_self _ _)) h hs h1
      exact ih _ w₁ ht.2 (fun s hmem => hty s (List.mem_cons_of_mem _ hmem)) ht1 hs1 w' hrun

/-- Every state reached from a fresh empty table by `Add`, `NotFoundAdded`,
`Delete`, `Flush` and sweep calls whose clock readings never go back has the
lock free, and at a clock reading `now` not earlier than the last of them no
entry of it was last read after `now` and every TTL is a value of type
`time.Duration`. -/
theorem reached_state_is_well_formed (name : String) (lo now : Time) (steps : List Step)
    (w' : World) (htime : timelySteps lo steps) (htyped : ∀ s ∈ steps, s.typed)
    (hrun : runSteps steps ⟨Cache name, []⟩ = .ok w') (hnow : latestSteps lo steps ≤ now) :
    w'.table.mutex = RWMutex.free ∧
    ∀ k item, w'.table.items.lookup k = some item →
      item.accessdOn ≤ now ∧ item.lifeSpan ≤ maxInt64 := by
  obtain ⟨hT, hS⟩ := Timed_Cache lo name
  have h := (timed_steps steps lo ⟨Cache name, []⟩ htime htyped hT hS w' hrun).mono hnow
  exact ⟨h.1, h.2.2⟩

/-- The library subtraction of the sweep does not saturate on an entry with a
finite TTL that survives: with the last read of the entry at `now` at the
latest and a TTL of type `time.Duration`, `now.Sub(accessOn)` is the integer
`now - accessOn`. -/
theorem Sub_of_survivor (now : Time) (item : CacheItem) (h : item.accessdOn ≤ now)
    (hl : item.lifeSpan ≤ maxInt64) (h0 : item.lifeSpan ≠ 0) (hne : ¬ expired now item) :
    Time.Sub now item.accessdOn = now - item.accessdOn := by
  have hlt : Time.Sub now item.accessdOn < item.lifeSpan :=
    not_le.mp (fun hge => hne ⟨h0, hge⟩)
  have hmax : Time.Sub now item.accessdOn < maxInt64 := lt_of_lt_of_le hlt hl
  have hd : (0 : Int) ≤ now - item.accessdOn := sub_nonneg.mpr h
  simp only [Time.Sub, clampInt64, minInt64, maxInt64] at hmax ⊢
  split
  · omega
  · split
    · rename_i h1 h2
      rw [if_neg h1, if_pos h2] at hmax
      exact absurd hmax (lt_irrefl _)
    · rfl

/-- An instance of `reached_state_is_well_formed`: the state `exampleSchedule`
leaves on a fresh table is well formed at the clock reading 200ms of its last
call. -/
theorem exampleSchedule_state_is_well_formed :
    ∃ w', runSteps exampleSchedule ⟨Cache "t", []⟩ = .ok w' ∧
      w'.table.mutex = RWMutex.free ∧
      ∀ k item, w'.table.items.lookup k = some item →
        item.accessdOn ≤ 200 * Millisecond ∧ item.lifeSpan ≤ maxInt64 := by
  have htime : timelySteps 0 exampleSchedule := by
    simp [timelySteps, exampleSchedule, Step.timely, Step.latest, Millisecond]
  have htyped : ∀ s ∈ exampleSchedule, s.typed := by
    simp [exampleSchedule, Step.typed, minInt64, maxInt64, Millisecond]
  obtain ⟨hT, hS⟩ := Timed_Cache 0 "t"
  obtain ⟨w', hw'⟩ := (scheduled_steps exampleSchedule 0 ⟨Cache "t", []⟩ htime htyped hT hS).2
    (by simp [exampleSchedule, Step.isValue])
  exact ⟨w', hw', reached_state_is_well_formed "t" 0 (200 * Millisecond) exampleSchedule w'
    htime htyped hw' (by simp [latestSteps, exampleSchedule, Step.latest])⟩

/-- C18: the interval a sweep leaves. For every table state with the lock free
and every clock reading `now` of the sweep that is not earlier than the last
read of an entry (TTLs being values of type `time.Duration`), after one pass
the scheduling interval is the minimum of `ttl - (now - lastAccessAt)` over the
surviving entries with `ttl != 0` (a lower bound of them all, attained by one
of them), which is strictly positive; it is 0 exactly when no surviving entry
has a finite TTL. The subtraction `now.Sub(accessOn)` of the code is the
integer `now - lastAccessAt` on these entries. A timer is pending after the
pass iff the interval is positive, and then with exactly that delay; otherwise
the interval is 0 and no timer is pending. -/
theorem sweep_schedules_the_minimum_remaining_life (w : World) (now : Time)
    (hfree : w.table.mutex = RWMutex.free)
    (hwf : ∀ k item, w.table.items.lookup k = some item →
      item.accessdOn ≤ now ∧ item.lifeSpan ≤ maxInt64) :
    ∃ w', CacheTable.expirationCheck now w = .ok w' ∧
      (∀ k item, w'.table.items.lookup k = some item → item.lifeSpan ≠ 0 →
        0 < w'.table.cleanupInterval ∧
        w'.table.cleanupInterval ≤ item.lifeSpan - Time.Sub now item.accessdOn) ∧
      ((∃ k item, w'.table.items.lookup k = some item ∧ item.lifeSpan ≠ 0) →
        ∃ k item, w'.table.items.lookup k = some item ∧ item.lifeSpan ≠ 0 ∧
          w'.table.cleanupInterval = item.lifeSpan - Time.Sub now item.accessdOn) ∧
      (w'.table.cleanupInterval = 0 ↔
        ¬ ∃ k item, w'.table.items.lookup k = some item ∧ item.lifeSpan ≠ 0) ∧
      (∀ k item, w'.table.items.lookup k = some item → item.lifeSpan ≠ 0 →
        Time.Sub now item.accessdOn = now - item.accessdOn) ∧
      (0 < w'.table.cleanupInterval →
        w'.table.cleanupTimer = some ⟨w'.table.cleanupInterval, true⟩) ∧
      (¬ 0 < w'.table.cleanupInterval →
        w'.table.cleanupInterval = 0 ∧
        ∀ t, w'.table.cleanupTimer = some t → t.pending = false) := by
  obtain ⟨w', hrun, htab, h0, hmin, hatt, hzero, harm, hidle⟩ := sweep_interval w now hfree
    (fun k item hl => remaining_fits now item (hwf k item hl).1 (hwf k item hl).2)
  refine ⟨w', hrun, hmin, hatt, hzero, ?_, harm,
    fun hn => ⟨le_antisymm (not_lt.mp hn) h0, hidle hn⟩⟩
  intro k item hl hne0
  rw [htab, lookup_sweepTable] at hl
  exact Sub_of_survivor now item (hwf k item hl.1).1 (hwf k item hl.1).2 hne0 hl.2

/-- Witness of C18: a sweep of `exampleWorld` at 30ms leaves its entry with TTL
100ms, last read at 20ms, and schedules the next pass 90ms later. -/
theorem sweep_schedules_the_minimum_remaining_life_witness :
    exampleWorld.table.mutex = RWMutex.free ∧
    (∀ k item, exampleWorld.table.items.lookup k = some item →
      item.accessdOn ≤ 30 * Millisecond ∧ item.lifeSpan ≤ maxInt64) ∧
    ∃ w', CacheTable.expirationCheck (30 * Millisecond) exampleWorld = .ok w' ∧
      w'.table.cleanupInterval = 90 * Millisecond ∧
      w'.table.cleanupTimer = some ⟨90 * Millisecond, true⟩ := by
  have hwf : ∀ k item, exampleWorld.table.items.lookup k = some item →
      item.accessdOn ≤ 30 * Millisecond ∧ item.lifeSpan ≤ maxInt64 := by
    intro k item h
    have hmem := mem_entries_of_lookup _ _ _ h
    have hent : exampleWorld.table.items.entries = [⟨1, exampleItem⟩, ⟨2, exampleForever⟩] := by
      decide
    rw [hent] at hmem
    simp only [List.mem_cons, Sigma.mk.inj_iff, heq_eq_eq, List.mem_singleton,
      List.not_mem_nil, or_false] at hmem
    rcases hmem with ⟨_, rfl⟩ | ⟨_, rfl⟩ <;> decide
  obtain ⟨w', hrun, _, _, _, _, harm, _⟩ :=
    sweep_schedules_the_minimum_remaining_life exampleWorld (30 * Millisecond) rfl hwf
  have hw' : w' = ⟨sweepTable (30 * Millisecond) exampleWorld.table, _⟩ :=
    Except.ok.inj (hrun.symm.trans (expirationCheck_spec (30 * Millisecond) exampleWorld rfl))
  have hint : w'.table.cleanupInterval = 90 * Millisecond := by rw [hw']; decide
  exact ⟨rfl, hwf, w', hrun, hint, by rw [harm (by rw [hint]; decide), hint]⟩

/-- C20: scheduling invariant. In every state reached from a fresh empty table
by `Add`, `NotFoundAdded`, `Value`, `Delete`, `Flush` and sweep steps whose
clock readings never go back (TTLs being values of type `time.Duration`), a
table that holds an entry with `ttl > 0` has `cleanupInterval > 0`; a sequence
without `Value` steps runs to its end. `Add` runs a sweep exactly when the new
entry has `ttl > 0` and `cleanupInterval = 0` or `ttl < cleanupInterval`. -/
theorem finite_ttl_entry_is_never_left_unscheduled (name : String) (lo : Time)
    (steps : List Step) (htime : timelySteps lo steps) (htyped : ∀ s ∈ steps, s.typed) :
    (∀ w', runSteps steps ⟨Cache name, []⟩ = .ok w' →
      (∃ k item, w'.table.items.lookup k = some item ∧ 0 < item.lifeSpan) →
      0 < w'.table.cleanupInterval) ∧
    ((∀ s ∈ steps, s.isValue = false) → ∃ w', runSteps steps ⟨Cache name, []⟩ = .ok w') ∧
    (∀ (w : World) (key : Key) (ttl : Duration) (v : Data) (tCreate tSweep : Time),
      w.table.mutex = RWMutex.free →
      ∃ item w', CacheTable.Add key ttl v tCreate tSweep w = .ok (item, w') ∧
        w'.trace = w.trace ++ [Event.Lock, Event.Unlock]
          ++ w.table.addedItem.map
              (fun cb => Event.addedItem cb item (w.table.items.insert key item))
          ++ (if 0 < ttl ∧ (w.table.cleanupInterval = 0 ∨ ttl < w.table.cleanupInterval) then
                [Event.Lock]
                  ++ sweepEvents tSweep w.table.aboutToDeleteItem
                      (w.table.items.insert key item).entries (w.table.items.insert key item)
                  ++ [Event.Unlock]
              else []) ∧
        w'.table =
          if 0 < ttl ∧ (w.table.cleanupInterval = 0 ∨ ttl < w.table.cleanupInterval) then
            sweepTable tSweep { w.table with items := w.table.items.insert key item }
          else { w.table with items := w.table.items.insert key item }) := by
  obtain ⟨hT, hS⟩ := Timed_Cache lo name
  obtain ⟨hA, hB⟩ := scheduled_steps steps lo ⟨Cache name, []⟩ htime htyped hT hS
  refine ⟨fun w' hrun hex => (hA w' hrun).2 hex, hB, ?_⟩
  intro w key ttl v tCreate tSweep hfree
  refine ⟨_, _, Add_spec key ttl v tCreate tSweep w hfree, ?_, ?_⟩
  · simp [addEvents, NewCacheItem]
  · simp [addTable, NewCacheItem]

/-- Witness of C20: `exampleSchedule` run on a fresh table; the entry added
last, with TTL 50ms, is held and a sweep is scheduled 50ms later. -/
theorem finite_ttl_entry_is_never_left_unscheduled_witness :
    timelySteps 0 exampleSchedule ∧ (∀ s ∈ exampleSchedule, s.typed) ∧
    ∃ w', runSteps exampleSchedule ⟨Cache "t", []⟩ = .ok w' ∧
      (∃ item, w'.table.items.lookup 3 = some item ∧ item.lifeSpan = 50 * Millisecond) ∧
      0 < w'.table.cleanupInterval := by
  have htime : timelySteps 0 exampleSchedule := by
    simp [timelySteps, exampleSchedule, Step.timely, Step.latest, Millisecond]
  have htyped : ∀ s ∈ exampleSchedule, s.typed := by
    simp [exampleSchedule, Step.typed, minInt64, maxInt64, Millisecond]
  obtain ⟨hinv, hruns, _⟩ :=
    finite_ttl_entry_is_never_left_unscheduled "t" 0 exampleSchedule htime htyped
  obtain ⟨w', hw'⟩ := hruns (by simp [exampleSchedule, Step.isValue])
  have hlook : (fun w : World => (w.table.items.lookup 3).map CacheItem.lifeSpan)
      <$> runSteps exampleSchedule ⟨Cache "t", []⟩ = .ok (some (50 * Millisecond)) := by
    rfl
  rw [hw'] at hlook
  have hl : (w'.table.items.lookup 3).map CacheItem.lifeSpan = some (50 * Millisecond) :=
    Except.ok.inj hlook
  cases h3 : w'.table.items.lookup 3 with
  | none => simp [h3] at hl
  | some item =>
    simp only [h3, Option.map_some', Option.some.injEq] at hl
    exact ⟨htime, htyped, w', hw', ⟨item, h3, hl⟩,
      hinv w' hw' ⟨3, item, h3, by rw [hl]; decide⟩⟩

/-- C19 (code at the failing input): `Value` acquires the table lock in shared
form, `RLock` leaving one reader, and then calls `Unlock`, the release of the
exclusive form, which the mutex refuses; the release of the shared form,
`RUnlock`, would have left the lock free. So `Value` does not return with the
lock free. -/
theorem Value_releases_a_read_lock_with_Unlock :
    (∃ w₁, CacheTable.RLock exampleWorld = .ok w₁ ∧
      w₁.table.mutex = ⟨1, false⟩ ∧ w₁.trace = [Event.RLock] ∧
      CacheTable.Unlock w₁ = .error Fault.unlockOfUnlocked ∧
      ∃ w₂, CacheTable.RUnlock w₁ = .ok w₂ ∧ w₂.table.mutex = RWMutex.free) ∧
    CacheTable.Value 2 [] (40 * Millisecond) (40 * Millisecond) (40 * Millisecond) exampleWorld
      = .error Fault.unlockOfUnlocked := by
  refine ⟨⟨_, RLock_of_free exampleWorld rfl, rfl, rfl, rfl, _, RUnlock_of_one _ rfl, rfl⟩, ?_⟩
  rw [Value_faults]
  rfl

/-- Every public operation other than `Value`, started with the lock free,
returns with the lock free: had it released the lock in a form in which it was
not held, the mutex would have refused. The lookups `Count`, `Exists`,
`Foreach` and `MostAccessed` take the shared form. -/
theorem operations_other_than_Value_return_with_the_lock_free (w : World)
    (hfree : w.table.mutex = RWMutex.free) :
    (∃ n w', CacheTable.Count w = .ok (n, w') ∧ w'.table.mutex = RWMutex.free ∧
      w'.trace = w.trace ++ [Event.RLock, Event.RUnlock]) ∧
    (∀ k, ∃ b w', CacheTable.Exists k w = .ok (b, w') ∧ w'.table.mutex = RWMutex.free ∧
      w'.trace = w.trace ++ [Event.RLock, Event.RUnlock]) ∧
    (∀ f, ∃ w', CacheTable.Foreach f w = .ok w' ∧ w'.table.mutex = RWMutex.free) ∧
    (∀ n, ∃ r w', CacheTable.MostAccessed n w = .ok (r, w') ∧ w'.table.mutex = RWMutex.free ∧
      w'.trace = w.trace ++ [Event.RLock, Event.RUnlock]) ∧
    (∀ k ttl v t₁ t₂, ∃ r w', CacheTable.Add k ttl v t₁ t₂ w = .ok (r, w') ∧
      w'.table.mutex = RWMutex.free) ∧
    (∀ k ttl v t₁ t₂, ∃ r w', CacheTable.NotFoundAdded k ttl v t₁ t₂ w = .ok (r, w') ∧
      w'.table.mutex = RWMutex.free) ∧
    (∀ k, ∃ r w', CacheTable.Delete k w = .ok (r, w') ∧ w'.table.mutex = RWMutex.free) ∧
    (∃ w', CacheTable.Flush w = .ok w' ∧ w'.table.mutex = RWMutex.free) ∧
    (∀ now, ∃ w', CacheTable.expirationCheck now w = .ok w' ∧
      w'.table.mutex = RWMutex.free) ∧
    (∀ f, ∃ w', CacheTable.SetDataLoader f w = .ok w' ∧ w'.table.mutex = RWMutex.free) ∧
    (∀ f, ∃ w₁ w₂ w₃, CacheTable.SetAddedItemCallback f w = .ok w₁ ∧
      CacheTable.AddAddedItemCallback f w = .ok w₂ ∧
      CacheTable.RemoveAddedItemCallbacks w = .ok w₃ ∧
      w₁.table.mutex = RWMutex.free ∧ w₂.table.mutex = RWMutex.free ∧
      w₃.table.mutex = RWMutex.free) ∧
    (∀ f, ∃ w₁ w₂ w₃, CacheTable.SetAboutToDeleteItemCallback f w = .ok w₁ ∧
      CacheTable.AddAboutToDeleteItemCallback f w = .ok w₂ ∧
      CacheTable.RemoveAboutToDeleteItemCallback w = .ok w₃ ∧
      w₁.table.mutex = RWMutex.free ∧ w₂.table.mutex = RWMutex.free ∧
      w₃.table.mutex = RWMutex.free) := by
  refine ⟨⟨_, _, Count_spec w hfree, hfree, rfl⟩, fun k => ⟨_, _, Exists_spec k w hfree, hfree, rfl⟩,
    fun f => ⟨_, Foreach_spec f w hfree, hfree⟩,
    fun n => ⟨_, _, MostAccessed_spec n w hfree, hfree, rfl⟩,
    fun k ttl v t₁ t₂ => ⟨_, _, Add_spec k ttl v t₁ t₂ w hfree, by rw [addTable_mutex]; exact hfree⟩,
    ?_, ?_, ⟨_, Flush_spec w hfree, hfree⟩,
    fun now => ⟨_, expirationCheck_spec now w hfree, hfree⟩,
    fun f => ⟨_, SetDataLoader_spec f w hfree, hfree⟩,
    fun f => ⟨_, _, _, SetAddedItemCallback_spec f w hfree, AddAddedItemCallback_spec f w hfree,
      RemoveAddedItemCallbacks_spec w hfree, hfree, hfree, hfree⟩,
    fun f => ⟨_, _, _, SetAboutToDeleteItemCallback_spec f w hfree,
      AddAboutToDeleteItemCallback_spec f w hfree,
      RemoveAboutToDeleteItemCallback_spec w hfree, hfree, hfree, hfree⟩⟩
  · intro k ttl v t₁ t₂
    cases hl : w.table.items.lookup k with
    | none =>
      exact ⟨_, _, NotFoundAdded_absent k ttl v t₁ t₂ w hfree hl,
        by rw [addTable_mutex]; exact hfree⟩
    | some r => exact ⟨_, _, NotFoundAdded_present k ttl v t₁ t₂ r w hfree hl, hfree⟩
  · intro k
    cases hl : w.table.items.lookup k with
    | none => exact ⟨_, _, Delete_absent k w hfree hl, hfree⟩
    | some r => exact ⟨_, _, Delete_present k r w hfree hl, hfree⟩

end Cache2go
